import Mathlib

/-!
Verification of the DarkAGI orchestration core against its specification.

The development shallowly embeds, from the TypeScript source:
  * the stream field extractor `extractJSONString` (geminiService.ts),
  * the final response parser at the end of `runAgent` (geminiService.ts),
  * the repetition detector `areActionsIdentical` and the context builder
    of `runAgent` (geminiService.ts),
  * the action dispatcher `performFileActions` (App.tsx),
  * the write-verification retry policy and the turn loop of
    `handleSendMessage` (App.tsx).

External collaborators (the Gemini network client, the math evaluator, the
script sandbox, file readers) are modelled as oracle functions supplied in
an environment record, mirroring their call/return/throw contracts.
-/

namespace DarkAGI

/-! ### JavaScript character classes

`isJsWs` models the ASCII fragment of the regex class `\s` (and of
`String.prototype.trim`): space, tab, line feed, carriage return, vertical
tab, form feed. -/

def isJsWs (c : Char) : Bool :=
  c = ' ' || c = '\t' || c = '\n' || c = '\r' || c = '\x0b' || c = '\x0c'

/-- Greedy `\s*`: drop a maximal run of whitespace. -/
def skipWs : List Char → List Char
  | [] => []
  | c :: rest => if isJsWs c then skipWs rest else c :: rest

/-! ### Stream field extractor (geminiService.ts, `extractJSONString`)

The source matches the regex `"prop"\s*:\s*"((?:[^"\\]|\\.)*)"` (mode 1,
field closed) and, failing that, the same pattern without the final quote
(mode 2, field still open), then decodes the escapes `\n \r \t \" \\` by
five successive global `String.replace` calls.  Both regexes are
deterministic: the value body is a sequence of units, each a single
character other than `"`/`\` or a backslash followed by any character
(flag `s` makes `.` match newlines), and backtracking can never produce an
alternative parse.  The embedding realises the leftmost-match search of
`String.match` by trying every suffix of the text in order. -/

/-- Match the literal characters of the property name. -/
def matchChars : List Char → List Char → Option (List Char)
  | [], rest => some rest
  | _ :: _, [] => none
  | p :: ps, c :: rest => if c = p then matchChars ps rest else none

/-- After the property name: expect `"` then `\s*:\s*"`; return the
remainder after the opening quote of the value. -/
def matchAfterName (l : List Char) : Option (List Char) :=
  match l with
  | [] => none
  | c :: rest =>
      if c = '"' then
        match skipWs rest with
        | [] => none
        | d :: rest2 =>
            if d = ':' then
              match skipWs rest2 with
              | [] => none
              | e :: rest3 => if e = '"' then some rest3 else none
            else none
      else none

/-- Try to match `"prop"\s*:\s*"` at the head of `text`; on success return
the remainder after the opening quote of the value. -/
def matchPrefixAt (prop text : List Char) : Option (List Char) :=
  match text with
  | [] => none
  | c :: rest =>
      if c = '"' then
        match matchChars prop rest with
        | some r => matchAfterName r
        | none => none
      else none

/-- Greedy body of mode 1: consume escape units until the closing quote;
`none` when the text ends before an unescaped quote is found. -/
def scanBodyClosed : List Char → Option (List Char)
  | [] => none
  | c :: rest =>
      if c = '"' then some []
      else if c = '\\' then
        match rest with
        | [] => none
        | d :: rest2 => (scanBodyClosed rest2).map (fun b => '\\' :: d :: b)
      else (scanBodyClosed rest).map (fun b => c :: b)

/-- Greedy body of mode 2: consume escape units until an unescaped quote or
the end of the text; a dangling final backslash cannot form a unit and is
left out. -/
def scanBodyOpen : List Char → List Char
  | [] => []
  | c :: rest =>
      if c = '"' then []
      else if c = '\\' then
        match rest with
        | [] => []
        | d :: rest2 => '\\' :: d :: scanBodyOpen rest2
      else c :: scanBodyOpen rest

/-- Leftmost match of mode 1 (`"prop"\s*:\s*"((?:[^"\\]|\\.)*)"`),
returning the captured body. -/
def findClosed (prop : List Char) : List Char → Option (List Char)
  | [] => none
  | c :: rest =>
      match matchPrefixAt prop (c :: rest) with
      | some after =>
          match scanBodyClosed after with
          | some body => some body
          | none => findClosed prop rest
      | none => findClosed prop rest

/-- Leftmost match of mode 2 (same pattern without the closing quote),
returning the captured body. -/
def findOpen (prop : List Char) : List Char → Option (List Char)
  | [] => none
  | c :: rest =>
      match matchPrefixAt prop (c :: rest) with
      | some after => some (scanBodyOpen after)
      | none => findOpen prop rest

/-- One global two-character `String.replace`: every occurrence of `[a, b]`
is replaced by `r`, scanning left to right without overlap. -/
def replace2 (a b : Char) (r : List Char) : List Char → List Char
  | [] => []
  | [c] => [c]
  | c :: d :: rest =>
      if c = a ∧ d = b then r ++ replace2 a b r rest
      else c :: replace2 a b r (d :: rest)

/-- The source's escape decoding: five successive global replaces, in the
source's order `\n`, `\r`, `\t`, `\"`, `\\`. -/
def decodeEscapes (l : List Char) : List Char :=
  replace2 '\\' '\\' ['\\']
    (replace2 '\\' '"' ['"']
      (replace2 '\\' 't' ['\t']
        (replace2 '\\' 'r' ['\r']
          (replace2 '\\' 'n' ['\n'] l))))

/-- geminiService.ts `extractJSONString`: complete extraction first, then
streaming/partial extraction, else `null`. -/
def extractJSONString (text propName : String) : Option String :=
  match findClosed propName.data text.data with
  | some body => some (String.mk (decodeEscapes body))
  | none =>
      match findOpen propName.data text.data with
      | some body => some (String.mk (decodeEscapes body))
      | none => none

/-- The field has started: the pattern `"prop"\s*:\s*"` occurs somewhere in
the text. -/
def fieldStarted (prop : List Char) : List Char → Bool
  | [] => false
  | c :: rest => (matchPrefixAt prop (c :: rest)).isSome || fieldStarted prop rest

/-- Some occurrence of the field prefix is followed by a completed (closed)
JSON string value: the field's closing quote has appeared. -/
def closedOccurs (prop : List Char) : List Char → Bool
  | [] => false
  | c :: rest =>
      (match matchPrefixAt prop (c :: rest) with
       | some after => (scanBodyClosed after).isSome
       | none => false) || closedOccurs prop rest

/-- A well-formed value body: a sequence of regex units
`[^"\\]` or `\\.` . -/
def unitsB : List Char → Bool
  | [] => true
  | c :: rest =>
      if c = '"' then false
      else if c = '\\' then
        match rest with
        | [] => false
        | _ :: rest2 => unitsB rest2
      else unitsB rest

example : extractJSONString "\x7b\"thought\":\"Look" "thought" = some "Look" := by decide
example : extractJSONString "\x7b\"thought\":\"Looking for file\"" "thought" =
    some "Looking for file" := by decide
example : extractJSONString "\x7b\"plan\"" "thought" = none := by decide
example : extractJSONString "\x7b\"thought\":\"a\\nb" "thought" = some "a\nb" := by decide

/-! ### Basic lemmas about the extractor -/

theorem scanBodyClosed_shape (l : List Char) :
    ∀ b, scanBodyClosed l = some b →
      unitsB b = true ∧ ∃ rest, l = b ++ '"' :: rest := by
  induction l using scanBodyClosed.induct with
  | case1 => intro b h; rw [scanBodyClosed.eq_def] at h; simp at h
  | case2 rest2 =>
      intro b h
      rw [scanBodyClosed.eq_def] at h
      simp at h
      subst h
      exact ⟨rfl, rest2, rfl⟩
  | case3 h3 => intro b h; rw [scanBodyClosed.eq_def] at h; simp at h
  | case4 d rest2 h4 ih =>
      intro b h
      rw [scanBodyClosed.eq_def] at h
      simp at h
      obtain ⟨b', hb', rfl⟩ := h
      obtain ⟨hu, r, hr⟩ := ih b' hb'
      refine ⟨?_, r, by simp [hr]⟩
      rw [unitsB.eq_def]
      simpa using hu
  | case5 d rest2 hq hb ih =>
      intro b h
      rw [scanBodyClosed.eq_def] at h
      simp [hq, hb] at h
      obtain ⟨b', hb', rfl⟩ := h
      obtain ⟨hu, r, hr⟩ := ih b' hb'
      refine ⟨?_, r, by simp [hr]⟩
      rw [unitsB.eq_def]
      cases rest2 <;> simp [hq, hb] <;> exact hu

theorem scanBodyOpen_units (l : List Char) : unitsB (scanBodyOpen l) = true := by
  induction l using scanBodyOpen.induct with
  | case1 => rfl
  | case2 rest2 => rw [scanBodyOpen.eq_def]; simp [unitsB]
  | case3 h3 => rw [scanBodyOpen.eq_def]; simp [unitsB]
  | case4 d rest2 h4 ih =>
      rw [scanBodyOpen.eq_def]
      simp
      rw [unitsB.eq_def]
      simpa using ih
  | case5 d rest2 hq hb ih =>
      rw [scanBodyOpen.eq_def]
      simp [hq, hb]
      rw [unitsB.eq_def]
      cases hsc : scanBodyOpen rest2 <;> simp [hq, hb] <;> rw [← hsc] <;> exact ih

theorem scanBodyOpen_shape (l : List Char) :
    scanBodyClosed l = none →
      l = scanBodyOpen l ∨ l = scanBodyOpen l ++ ['\\'] := by
  induction l using scanBodyOpen.induct with
  | case1 => intro _; left; rfl
  | case2 rest2 =>
      intro h
      rw [scanBodyClosed.eq_def] at h
      simp at h
  | case3 h3 => intro _; right; rfl
  | case4 d rest2 h4 ih =>
      intro h
      rw [scanBodyClosed.eq_def] at h
      simp at h
      rcases ih h with h' | h'
      · left; rw [scanBodyOpen.eq_def]; simp; exact h'
      · right; rw [scanBodyOpen.eq_def]; simp; rw [← h']
  | case5 d rest2 hq hb ih =>
      intro h
      rw [scanBodyClosed.eq_def] at h
      simp [hq, hb] at h
      rcases ih h with h' | h'
      · left; rw [scanBodyOpen.eq_def]; simp [hq, hb]; exact h'
      · right; rw [scanBodyOpen.eq_def]; simp [hq, hb]; rw [← h']

theorem findClosed_some (prop : List Char) (t : List Char) :
    ∀ b, findClosed prop t = some b →
      ∃ p s after, t = p ++ s ∧ matchPrefixAt prop s = some after ∧
        scanBodyClosed after = some b := by
  induction t with
  | nil => intro b h; simp [findClosed] at h
  | cons c rest ih =>
      intro b h
      cases hm : matchPrefixAt prop (c :: rest) with
      | some after =>
          rw [findClosed, hm] at h
          dsimp only at h
          cases hs : scanBodyClosed after with
          | some body =>
              rw [hs] at h
              simp at h
              subst h
              exact ⟨[], c :: rest, after, rfl, hm, hs⟩
          | none =>
              rw [hs] at h
              obtain ⟨p, s, a2, hps, hm2, hs2⟩ := ih b h
              exact ⟨c :: p, s, a2, by simp [hps], hm2, hs2⟩
      | none =>
          rw [findClosed, hm] at h
          dsimp only at h
          obtain ⟨p, s, a2, hps, hm2, hs2⟩ := ih b h
          exact ⟨c :: p, s, a2, by simp [hps], hm2, hs2⟩

theorem findOpen_some (prop : List Char) (t : List Char) :
    ∀ b, findOpen prop t = some b →
      ∃ p s after, t = p ++ s ∧ matchPrefixAt prop s = some after ∧
        scanBodyOpen after = b := by
  induction t with
  | nil => intro b h; simp [findOpen] at h
  | cons c rest ih =>
      intro b h
      cases hm : matchPrefixAt prop (c :: rest) with
      | some after =>
          rw [findOpen, hm] at h
          dsimp only at h
          simp at h
          exact ⟨[], c :: rest, after, rfl, hm, h⟩
      | none =>
          rw [findOpen, hm] at h
          dsimp only at h
          obtain ⟨p, s, a2, hps, hm2, hs2⟩ := ih b h
          exact ⟨c :: p, s, a2, by simp [hps], hm2, hs2⟩

theorem findOpen_none_iff (prop : List Char) (t : List Char) :
    findOpen prop t = none ↔ fieldStarted prop t = false := by
  induction t with
  | nil => simp [findOpen, fieldStarted]
  | cons c rest ih =>
      cases hm : matchPrefixAt prop (c :: rest) with
      | some after => rw [findOpen, hm, fieldStarted, hm]; simp
      | none => rw [findOpen, hm, fieldStarted, hm]; simpa using ih

theorem findClosed_started (prop : List Char) (t : List Char) :
    ∀ b, findClosed prop t = some b → fieldStarted prop t = true := by
  induction t with
  | nil => intro b h; simp [findClosed] at h
  | cons c rest ih =>
      intro b h
      cases hm : matchPrefixAt prop (c :: rest) with
      | some after => rw [fieldStarted, hm]; simp
      | none =>
          rw [findClosed, hm] at h
          dsimp only at h
          rw [fieldStarted, hm]
          simpa using ih b h

theorem findClosed_none_iff (prop : List Char) (t : List Char) :
    findClosed prop t = none ↔ closedOccurs prop t = false := by
  induction t with
  | nil => simp [findClosed, closedOccurs]
  | cons c rest ih =>
      cases hm : matchPrefixAt prop (c :: rest) with
      | some after =>
          rw [findClosed, hm, closedOccurs, hm]
          dsimp only
          cases hs : scanBodyClosed after with
          | some body => simp
          | none => simpa using ih
      | none =>
          rw [findClosed, hm, closedOccurs, hm]
          dsimp only
          simpa using ih

/-! ### The dynamic regex construction

The source does not match the field name literally: it builds
`new RegExp` from the name (`"${propName}"\s*:\s*"((?:[^"\\]|\\.)*)"` and
the open variant without the final quote).  The literal embedding
`extractJSONString` above is faithful only for identifier-like names —
letters, digits, underscore — which carry no regex metacharacters; every
call site (`thought`, `final_answer`, `plan`) is of that form.  For other
names the construction can diverge (metacharacters match differently) or
throw outright: a name making the pattern syntactically invalid raises a
`SyntaxError` at `new RegExp`.  The pattern builders and the validity
scanner below model that error path. -/

/-- Characters of the field names actually used: letters, digits,
underscore. -/
def plainChar (c : Char) : Bool := c.isAlphanum || c = '_'

/-- An identifier-like (nonempty) field name: matched literally by the
dynamically built regex, and never causing a `SyntaxError`. -/
def plainProp (prop : List Char) : Bool := !prop.isEmpty && prop.all plainChar

/-- The pattern source handed to `new RegExp` for complete extraction
(geminiService.ts 140): `"NAME"\s*:\s*"((?:[^"\\]|\\.)*)"`. -/
def closedPatternSrc (prop : List Char) : List Char :=
  '"' :: prop ++ ("\"\\s*:\\s*\"((?:[^\"\\\\]|\\\\.)*)\"").data

/-- The pattern source for streaming/partial extraction (geminiService.ts
152): the same without the final quote. -/
def openPatternSrc (prop : List Char) : List Char :=
  '"' :: prop ++ ("\"\\s*:\\s*\"((?:[^\"\\\\]|\\\\.)*)").data

/-- A fragment of the RegExp grammar sufficient here: tracking escapes,
character classes and group depth, the scanner rejects exactly the basic
syntax errors `new RegExp` raises for — an unterminated group, an
unmatched `)`, an unterminated class, a dangling backslash.  A pattern it
rejects makes the source throw before any matching happens. -/
def regexScanOk : List Char → Nat → Bool → Bool
  | [], d, inClass => decide (d = 0) && !inClass
  | ['\\'], _, _ => false
  | '\\' :: _ :: rest, d, inClass => regexScanOk rest d inClass
  | ']' :: rest, d, true => regexScanOk rest d false
  | _ :: rest, d, true => regexScanOk rest d true
  | '[' :: rest, d, false => regexScanOk rest d true
  | '(' :: rest, d, false => regexScanOk rest (d + 1) false
  | ')' :: rest, d, false => if d = 0 then false else regexScanOk rest (d - 1) false
  | _ :: rest, d, false => regexScanOk rest d false

def regexValid (p : List Char) : Bool := regexScanOk p 0 false

/-- **C2 (amended).** For identifier-like field names — the restriction
under which the literal-name embedding is faithful to the dynamically
built regex, satisfied at every call site — the stream field extractor is
a total function (no throw); it returns `null` exactly when the field has
not started, i.e. no occurrence of `"field"\s*:\s*"` exists in the
accumulated text; in closed mode the result is the complete JSON string
value — a well-formed escape-unit body terminated by the closing quote,
located right after an occurrence of the field prefix — with the escapes
`\n \r \t \" \\` decoded by the source's replacement chain; in open mode
(no occurrence closes) the result is the partial content after the field
prefix, running to the end of the text save a dangling backslash, with the
same escapes decoded.  (Without the restriction the original claim fails:
the name `(` makes `new RegExp` throw, see the counterexample.) -/
theorem C2_stream_extractor_contract (text propName : String)
    (_hplain : plainProp propName.data = true) :
    (extractJSONString text propName = none
        ↔ fieldStarted propName.data text.data = false)
  ∧ (∀ body, findClosed propName.data text.data = some body →
      extractJSONString text propName = some (String.mk (decodeEscapes body))
      ∧ unitsB body = true
      ∧ ∃ p s after rest, text.data = p ++ s
          ∧ matchPrefixAt propName.data s = some after
          ∧ after = body ++ '"' :: rest)
  ∧ (findClosed propName.data text.data = none →
      ∀ body, findOpen propName.data text.data = some body →
      extractJSONString text propName = some (String.mk (decodeEscapes body))
      ∧ unitsB body = true
      ∧ ∃ p s after, text.data = p ++ s
          ∧ matchPrefixAt propName.data s = some after
          ∧ (after = body ∨ after = body ++ ['\\'])) := by
  refine ⟨?_, ?_, ?_⟩
  · constructor
    · intro h
      unfold extractJSONString at h
      cases hc : findClosed propName.data text.data with
      | some b => rw [hc] at h; simp at h
      | none =>
          rw [hc] at h
          dsimp only at h
          cases ho : findOpen propName.data text.data with
          | some b => rw [ho] at h; simp at h
          | none => exact (findOpen_none_iff _ _).mp ho
    · intro h
      unfold extractJSONString
      cases hc : findClosed propName.data text.data with
      | some b => exact absurd (findClosed_started _ _ b hc) (by simp [h])
      | none =>
          cases ho : findOpen propName.data text.data with
          | some b =>
              exact absurd ((findOpen_none_iff _ _).mpr h) (by simp [ho])
          | none => rfl
  · intro body hc
    obtain ⟨p, s, after, hps, hm, hs⟩ := findClosed_some _ _ body hc
    obtain ⟨hu, rest, hrest⟩ := scanBodyClosed_shape after body hs
    refine ⟨?_, hu, p, s, after, rest, hps, hm, hrest⟩
    unfold extractJSONString
    rw [hc]
  · intro hc body ho
    obtain ⟨p, s, after, hps, hm, hs⟩ := findOpen_some _ _ body ho
    have hcafter : scanBodyClosed after = none := by
      cases hca : scanBodyClosed after with
      | none => rfl
      | some b2 =>
          exfalso
          have : closedOccurs propName.data text.data = false :=
            (findClosed_none_iff _ _).mp hc
          have hstart : closedOccurs propName.data (s) = true := by
            cases s with
            | nil => simp [matchPrefixAt] at hm
            | cons c0 s0 =>
                rw [closedOccurs, hm]
                dsimp only
                rw [hca]
                simp
          -- an occurrence in a suffix is an occurrence in the whole text
          have hmono : ∀ (p1 : List Char) (s1 : List Char),
              closedOccurs propName.data s1 = true →
              closedOccurs propName.data (p1 ++ s1) = true := by
            intro p1
            induction p1 with
            | nil => intro s1 h1; simpa using h1
            | cons x xs ih =>
                intro s1 h1
                rw [List.cons_append, closedOccurs]
                simp [ih s1 h1]
          rw [hps] at this
          rw [hmono p s hstart] at this
          simp at this
    rcases scanBodyOpen_shape after hcafter with h' | h'
    · refine ⟨?_, by rw [← hs]; exact scanBodyOpen_units after, p, s, after,
        hps, hm, Or.inl (by rw [← hs, ← h'])⟩
      unfold extractJSONString
      rw [hc]
      dsimp only
      rw [ho]
    · refine ⟨?_, by rw [← hs]; exact scanBodyOpen_units after, p, s, after,
        hps, hm, Or.inr (by rw [← hs, ← h'])⟩
      unfold extractJSONString
      rw [hc]
      dsimp only
      rw [ho]

/-- Witness for C2 at the spec's example input. -/
theorem C2_stream_extractor_contract_witness :
    plainProp "thought".data = true ∧
    extractJSONString "\x7b\"thought\":\"Looking for file\"" "thought" =
      some (String.mk (decodeEscapes "Looking for file".data)) ∧
    unitsB "Looking for file".data = true := by
  have h := (C2_stream_extractor_contract "\x7b\"thought\":\"Looking for file\"" "thought"
    (by decide)).2.1 "Looking for file".data (by decide)
  exact ⟨by decide, h.1, h.2.1⟩

/-- **C2 counterexample:** the contract cannot hold for every field name:
for the name `(` the constructed complete-extraction pattern (and the
partial one) has an unterminated group, so `new RegExp` throws a
`SyntaxError` and the extractor never returns — while the patterns built
from the identifier-like name `thought` are accepted.  The `plainProp`
restriction of the amended theorem excludes exactly such names. -/
theorem C2_invalid_name_throws :
    regexValid (closedPatternSrc "(".data) = false ∧
    regexValid (openPatternSrc "(".data) = false ∧
    plainProp "(".data = false ∧
    regexValid (closedPatternSrc "thought".data) = true ∧
    regexValid (openPatternSrc "thought".data) = true ∧
    plainProp "thought".data = true := by
  decide

/-! ### Monotonicity of the extractor under stream growth (towards C3)

The extractor is called with the literal field names `thought`,
`final_answer`, `plan` — identifier-like names made of letters, digits and
underscores, for which the literal embedding is exact. -/

theorem plainChar_facts {c : Char} (h : plainChar c = true) :
    c ≠ '"' ∧ c ≠ '\\' ∧ c ≠ ':' ∧ isJsWs c = false := by
  refine ⟨?_, ?_, ?_, ?_⟩
  · intro hc; subst hc; simp [plainChar] at h
  · intro hc; subst hc; simp [plainChar] at h
  · intro hc; subst hc; simp [plainChar] at h
  · cases hw : isJsWs c with
    | false => rfl
    | true =>
        exfalso
        have hd : ((((c = ' ' ∨ c = '\t') ∨ c = '\n') ∨ c = '\x0d') ∨ c = '\x0b') ∨ c = '\x0c' := by
          simpa [isJsWs] using hw
        rcases hd with ((((rfl | rfl) | rfl) | rfl) | rfl) | rfl <;> simp [plainChar] at h

/-! #### Append stability of successful matches -/

theorem matchChars_append (p : List Char) :
    ∀ l m r, matchChars p l = some r → matchChars p (l ++ m) = some (r ++ m) := by
  induction p with
  | nil => intro l m r h; simp [matchChars] at h; simp [matchChars, h]
  | cons q qs ih =>
      intro l m r h
      cases l with
      | nil => simp [matchChars] at h
      | cons c cs =>
          rw [matchChars] at h
          by_cases hc : c = q

          · rw [if_pos hc] at h
            simpa [matchChars, hc] using ih cs m r h
          · rw [if_neg hc] at h; exact absurd h (by simp)

theorem matchChars_some_shape (p : List Char) :
    ∀ l r, matchChars p l = some r → l = p ++ r := by
  induction p with
  | nil => intro l r h; simp [matchChars] at h; simpa using h
  | cons q qs ih =>
      intro l r h
      cases l with
      | nil => simp [matchChars] at h
      | cons c cs =>
          rw [matchChars] at h
          by_cases hc : c = q
          · rw [if_pos hc] at h
            simpa [hc] using ih cs r h
          · rw [if_neg hc] at h; exact absurd h (by simp)

theorem matchChars_none_split (p : List Char) :
    ∀ l m r, matchChars p l = none → matchChars p (l ++ m) = some r →
      ∃ p2, p = l ++ p2 := by
  induction p with
  | nil => intro l m r h _; simp [matchChars] at h
  | cons q qs ih =>
      intro l m r h h2
      cases l with
      | nil => exact ⟨q :: qs, rfl⟩
      | cons c cs =>
          rw [matchChars] at h
          rw [List.cons_append, matchChars] at h2
          by_cases hc : c = q
          · rw [if_pos hc] at h h2
            obtain ⟨p2, hp2⟩ := ih cs m r h h2
            exact ⟨p2, by simp [hc, hp2]⟩
          · rw [if_neg hc] at h2; exact absurd h2 (by simp)

theorem skipWs_nil_allWs (l : List Char) :
    skipWs l = [] → ∀ c ∈ l, isJsWs c = true := by
  induction l with
  | nil => intro _ c hc; simp at hc
  | cons x xs ih =>
      intro h c hc
      rw [skipWs] at h
      by_cases hx : isJsWs x = true
      · rw [if_pos hx] at h
        rcases List.mem_cons.mp hc with rfl | hc'
        · exact hx
        · exact ih h c hc'
      · rw [if_neg hx] at h; exact absurd h (by simp)

theorem skipWs_cons_shape (l : List Char) :
    ∀ c rest, skipWs l = c :: rest →
      ∃ w, l = w ++ c :: rest ∧ (∀ x ∈ w, isJsWs x = true) ∧ isJsWs c = false := by
  induction l with
  | nil => intro c rest h; simp [skipWs] at h
  | cons x xs ih =>
      intro c rest h
      rw [skipWs] at h
      by_cases hx : isJsWs x = true
      · rw [if_pos hx] at h
        obtain ⟨w, hw, hws, hc⟩ := ih c rest h
        exact ⟨x :: w, by simp [hw], by
          intro y hy
          rcases List.mem_cons.mp hy with rfl | hy'
          · exact hx
          · exact hws y hy', hc⟩
      · rw [if_neg hx] at h
        obtain ⟨rfl, rfl⟩ : x = c ∧ xs = rest := by
          constructor <;> [exact (List.cons.injEq .. ▸ h).1; exact (List.cons.injEq .. ▸ h).2]
        exact ⟨[], rfl, by simp, by simpa using hx⟩

theorem skipWs_append_nil (l m : List Char) (h : skipWs l = []) :
    skipWs (l ++ m) = skipWs m := by
  induction l with
  | nil => simp
  | cons x xs ih =>
      rw [skipWs] at h
      by_cases hx : isJsWs x = true
      · rw [if_pos hx] at h
        rw [List.cons_append, skipWs, if_pos hx]
        exact ih h
      · rw [if_neg hx] at h; exact absurd h (by simp)

theorem skipWs_append_cons (l m : List Char) (c : Char) (rest : List Char)
    (h : skipWs l = c :: rest) : skipWs (l ++ m) = c :: (rest ++ m) := by
  induction l with
  | nil => simp [skipWs] at h
  | cons x xs ih =>
      rw [skipWs] at h
      by_cases hx : isJsWs x = true
      · rw [if_pos hx] at h
        rw [List.cons_append, skipWs, if_pos hx]
        exact ih h
      · rw [if_neg hx] at h
        obtain ⟨rfl, rfl⟩ : x = c ∧ xs = rest := by
          constructor <;> [exact (List.cons.injEq .. ▸ h).1; exact (List.cons.injEq .. ▸ h).2]
        rw [List.cons_append, skipWs, if_neg hx]

theorem matchAfterName_append (l m r : List Char)
    (h : matchAfterName l = some r) :
    matchAfterName (l ++ m) = some (r ++ m) := by
  cases l with
  | nil => simp [matchAfterName] at h
  | cons c cs =>
      rw [matchAfterName] at h
      by_cases hc : c = '"'
      case neg => rw [if_neg hc] at h; exact absurd h (by simp)
      case pos =>
        rw [if_pos hc] at h
        cases h1 : skipWs cs with
        | nil => rw [h1] at h; simp at h
        | cons d ds =>
            rw [h1] at h
            dsimp only at h
            by_cases hd : d = ':'
            case neg => rw [if_neg hd] at h; exact absurd h (by simp)
            case pos =>
              rw [if_pos hd] at h
              cases h2 : skipWs ds with
              | nil => rw [h2] at h; simp at h
              | cons e es =>
                  rw [h2] at h
                  dsimp only at h
                  by_cases he : e = '"'
                  case neg => rw [if_neg he] at h; exact absurd h (by simp)
                  case pos =>
                    rw [if_pos he] at h
                    have hr : es = r := by simpa using h
                    subst hr
                    rw [List.cons_append, matchAfterName, if_pos hc,
                        skipWs_append_cons cs m d ds h1]
                    dsimp only
                    rw [if_pos hd, skipWs_append_cons ds m e es h2]
                    dsimp only
                    rw [if_pos he]

theorem matchPrefixAt_append (prop l m after : List Char)
    (h : matchPrefixAt prop l = some after) :
    matchPrefixAt prop (l ++ m) = some (after ++ m) := by
  cases l with
  | nil => simp [matchPrefixAt] at h
  | cons c cs =>
      rw [matchPrefixAt] at h
      by_cases hc : c = '"'
      case neg => rw [if_neg hc] at h; exact absurd h (by simp)
      case pos =>
        rw [if_pos hc] at h
        cases hm : matchChars prop cs with
        | none => rw [hm] at h; simp at h
        | some r =>
            rw [hm] at h
            dsimp only at h
            rw [List.cons_append, matchPrefixAt, if_pos hc,
                matchChars_append prop cs m r hm]
            dsimp only
            exact matchAfterName_append r m after h

theorem scanBodyClosed_append (l m : List Char) :
    ∀ b, scanBodyClosed l = some b → scanBodyClosed (l ++ m) = some b := by
  induction l using scanBodyClosed.induct with
  | case1 => intro b h; rw [scanBodyClosed.eq_def] at h; simp at h
  | case2 rest2 =>
      intro b h
      rw [scanBodyClosed.eq_def] at h
      simp at h
      subst h
      rw [List.cons_append, scanBodyClosed.eq_def]
      simp
  | case3 h3 => intro b h; rw [scanBodyClosed.eq_def] at h; simp at h
  | case4 d rest2 h4 ih =>
      intro b h
      rw [scanBodyClosed.eq_def] at h
      simp at h
      obtain ⟨b', hb', rfl⟩ := h
      have := ih b' hb'
      rw [List.cons_append, List.cons_append, scanBodyClosed.eq_def]
      simp [this]
  | case5 d rest2 hq hb ih =>
      intro b h
      rw [scanBodyClosed.eq_def] at h
      simp [hq, hb] at h
      obtain ⟨b', hb', rfl⟩ := h
      have := ih b' hb'
      rw [List.cons_append, scanBodyClosed.eq_def]
      simp [hq, hb, this]

theorem closedOccurs_append (prop t m : List Char)
    (h : closedOccurs prop t = true) : closedOccurs prop (t ++ m) = true := by
  induction t with
  | nil => simp [closedOccurs] at h
  | cons c rest ih =>
      rw [closedOccurs] at h
      rw [List.cons_append, closedOccurs]
      rcases Bool.or_eq_true_iff.mp h with h1 | h1
      · cases hm : matchPrefixAt prop (c :: rest) with
        | none => rw [hm] at h1; simp at h1
        | some after =>
            rw [hm] at h1
            dsimp only at h1
            cases hs : scanBodyClosed after with
            | none => rw [hs] at h1; simp at h1
            | some b =>
                rw [← List.cons_append,
                    matchPrefixAt_append prop (c :: rest) m after hm]
                dsimp only
                rw [scanBodyClosed_append after m b hs]
                simp
      · rw [ih h1]; simp

/-- A suffix of the text in which an occurrence closes makes the whole text
one in which an occurrence closes. -/
theorem closedOccurs_of_suffix (prop p s : List Char)
    (h : closedOccurs prop s = true) : closedOccurs prop (p ++ s) = true := by
  induction p with
  | nil => simpa using h
  | cons x xs ih => rw [List.cons_append, closedOccurs, ih]; simp

/-- `t` was consumed whole as a proper prefix of the pattern
`"prop"\s*:\s*"`: matching at the head of `t` ran out of input without
completing the pattern. -/
def patPre (prop t : List Char) : Prop :=
  t = [] ∨
  (∃ p1 p2, prop = p1 ++ p2 ∧ t = '"' :: p1) ∨
  (∃ w, (∀ c ∈ w, isJsWs c = true) ∧ t = '"' :: (prop ++ '"' :: w)) ∨
  (∃ w1 w2, (∀ c ∈ w1, isJsWs c = true) ∧ (∀ c ∈ w2, isJsWs c = true) ∧
     t = '"' :: (prop ++ '"' :: (w1 ++ ':' :: w2)))

theorem matchAfterName_none_split (r m a : List Char)
    (hn : matchAfterName r = none) (hs : matchAfterName (r ++ m) = some a) :
    r = [] ∨
    (∃ w, (∀ c ∈ w, isJsWs c = true) ∧ r = '"' :: w) ∨
    (∃ w1 w2, (∀ c ∈ w1, isJsWs c = true) ∧ (∀ c ∈ w2, isJsWs c = true) ∧
      r = '"' :: (w1 ++ ':' :: w2)) := by
  cases r with
  | nil => exact Or.inl rfl
  | cons c cs =>
      rw [List.cons_append, matchAfterName] at hs
      rw [matchAfterName] at hn
      by_cases hc : c = '"'
      case neg => rw [if_neg hc] at hs; exact absurd hs (by simp)
      case pos =>
        subst hc
        rw [if_pos rfl] at hn hs
        cases h1 : skipWs cs with
        | nil =>
            exact Or.inr (Or.inl ⟨cs, skipWs_nil_allWs cs h1, rfl⟩)
        | cons d ds =>
            rw [h1] at hn
            rw [skipWs_append_cons cs m d ds h1] at hs
            dsimp only at hn hs
            by_cases hd : d = ':'
            case neg => rw [if_neg hd] at hs; exact absurd hs (by simp)
            case pos =>
              subst hd
              rw [if_pos rfl] at hn hs
              cases h2 : skipWs ds with
              | nil =>
                  obtain ⟨w1, hw1, hws, _⟩ := skipWs_cons_shape cs ':' ds h1
                  exact Or.inr (Or.inr ⟨w1, ds, hws, skipWs_nil_allWs ds h2,
                    by rw [hw1]⟩)
              | cons e es =>
                  rw [h2] at hn
                  rw [skipWs_append_cons ds m e es h2] at hs
                  dsimp only at hn hs
                  by_cases he : e = '"'
                  · rw [if_pos he] at hn; exact absurd hn (by simp)
                  · rw [if_neg he] at hs; exact absurd hs (by simp)

/-- If matching fails on `t` but succeeds once more stream text is
appended, then `t` was consumed whole as a proper prefix of the pattern. -/
theorem matchPrefixAt_none_some (prop t m after : List Char)
    (hn : matchPrefixAt prop t = none)
    (hs : matchPrefixAt prop (t ++ m) = some after) : patPre prop t := by
  cases t with
  | nil => exact Or.inl rfl
  | cons c cs =>
      rw [List.cons_append, matchPrefixAt] at hs
      rw [matchPrefixAt] at hn
      by_cases hc : c = '"'
      case neg => rw [if_neg hc] at hs; exact absurd hs (by simp)
      case pos =>
        subst hc
        rw [if_pos rfl] at hn hs
        cases h1 : matchChars prop cs with
        | none =>
            obtain ⟨r', hr'⟩ : ∃ r', matchChars prop (cs ++ m) = some r' := by
              cases h2 : matchChars prop (cs ++ m) with
              | none => rw [h2] at hs; exact absurd hs (by simp)
              | some r' => exact ⟨r', rfl⟩
            obtain ⟨p2, hp2⟩ := matchChars_none_split prop cs m r' h1 hr'
            exact Or.inr (Or.inl ⟨cs, p2, hp2, rfl⟩)
        | some r =>
            rw [h1] at hn
            rw [matchChars_append prop cs m r h1] at hs
            dsimp only at hn hs
            have hshape := matchChars_some_shape prop cs r h1
            rcases matchAfterName_none_split r m after hn hs with rfl | h' | h'
            · exact Or.inr (Or.inl ⟨prop, [], by simp, by rw [hshape]; simp⟩)
            · obtain ⟨w, hws, rfl⟩ := h'
              exact Or.inr (Or.inr (Or.inl ⟨w, hws, by rw [hshape]⟩))
            · obtain ⟨w1, w2, hw1, hw2, rfl⟩ := h'
              exact Or.inr (Or.inr (Or.inr ⟨w1, w2, hw1, hw2, by rw [hshape]⟩))

theorem quote_not_ws : isJsWs '"' = false := by decide

/-- No occurrence of the pattern can start strictly inside a proper pattern
prefix, when the property name is identifier-like. -/
theorem patPre_no_interior (prop : List Char) (hplain : plainProp prop = true)
    (c : Char) (rest : List Char) (hpre : patPre prop (c :: rest))
    (p s after : List Char) (hsplit : rest = p ++ s)
    (hmatch : matchPrefixAt prop s = some after) : False := by
  obtain ⟨hne, hall⟩ : prop.isEmpty = false ∧ prop.all plainChar = true := by
    have := hplain
    rw [plainProp] at this
    simpa using this
  obtain ⟨q, qs, rfl⟩ : ∃ q qs, prop = q :: qs := by
    cases prop with
    | nil => simp at hne
    | cons q qs => exact ⟨q, qs, rfl⟩
  have hq : plainChar q = true := by
    have := List.all_eq_true.mp hall q (by simp)
    simpa using this
  have hqfacts := plainChar_facts hq
  have hnotq : ('"' : Char) ∈ q :: qs → False := by
    intro hmem
    have := List.all_eq_true.mp hall '"' hmem
    simp [plainChar] at this
  -- the interior occurrence starts with a quote followed by the name
  obtain ⟨s2, rfl, r2, hr2⟩ :
      ∃ s2, s = '"' :: s2 ∧ ∃ r2, s2 = (q :: qs) ++ r2 := by
    cases s with
    | nil => simp [matchPrefixAt] at hmatch
    | cons x xs =>
        rw [matchPrefixAt] at hmatch
        by_cases hx : x = '"'
        · subst hx
          refine ⟨xs, rfl, ?_⟩
          rw [if_pos rfl] at hmatch
          cases h1 : matchChars (q :: qs) xs with
          | none => rw [h1] at hmatch; exact absurd hmatch (by simp)
          | some r => exact ⟨r, matchChars_some_shape _ xs r h1⟩
        · rw [if_neg hx] at hmatch; exact absurd hmatch (by simp)
  rcases hpre with h0 | h1 | h2 | h3
  · exact List.noConfusion h0
  · -- t = '"' :: p1 with p1 a prefix of prop: no quote inside
    obtain ⟨p1, p2, hp, ht⟩ := h1
    injection ht with _ hrest
    have hmem : ('"' : Char) ∈ p1 := by
      rw [← hrest, hsplit]
      exact List.mem_append_right p (by simp)
    exact hnotq (hp ▸ List.mem_append_left p2 hmem)
  · -- t = '"' :: prop ++ '"' :: w
    obtain ⟨w, hws, ht⟩ := h2
    injection ht with _ hrest
    rw [hsplit] at hrest
    rcases List.append_eq_append_iff.mp hrest with ⟨k, hk1, hk2⟩ | ⟨k, hk1, hk2⟩
    · -- prop = p ++ k  and  '"' :: s2 = k ++ '"' :: w
      cases k with
      | nil =>
          rw [List.nil_append] at hk2
          injection hk2 with _ he
          have : isJsWs q = true := hws q (by rw [← he, hr2]; simp)
          rw [hqfacts.2.2.2] at this
          exact Bool.noConfusion this
      | cons c1 k' =>
          rw [List.cons_append] at hk2
          injection hk2 with he1 he2
          have : ('"' : Char) ∈ q :: qs := by
            rw [hk1]
            exact List.mem_append_right p (he1 ▸ by simp)
          exact hnotq this
    · -- p = prop ++ k  and  '"' :: w = k ++ '"' :: s2
      cases k with
      | nil =>
          rw [List.nil_append] at hk2
          injection hk2 with _ he
          have : isJsWs q = true := hws q (by rw [he, hr2]; simp)
          rw [hqfacts.2.2.2] at this
          exact Bool.noConfusion this
      | cons c1 k' =>
          rw [List.cons_append] at hk2
          injection hk2 with he1 he2
          have : isJsWs '"' = true := hws '"' (by rw [he2]; simp)
          rw [quote_not_ws] at this
          exact Bool.noConfusion this
  · -- t = '"' :: prop ++ '"' :: (w1 ++ ':' :: w2)
    obtain ⟨w1, w2, hw1, hw2, ht⟩ := h3
    injection ht with _ hrest
    rw [hsplit] at hrest
    rcases List.append_eq_append_iff.mp hrest with ⟨k, hk1, hk2⟩ | ⟨k, hk1, hk2⟩
    · -- prop = p ++ k  and  '"' :: s2 = k ++ '"' :: (w1 ++ ':' :: w2)
      cases k with
      | nil =>
          rw [List.nil_append] at hk2
          injection hk2 with _ he
          cases w1 with
          | nil =>
              rw [List.nil_append] at he
              rw [he, List.cons_append] at hr2
              injection hr2 with hcq _
              exact hqfacts.2.2.1 hcq.symm
          | cons x xs =>
              rw [List.cons_append] at he
              rw [he, List.cons_append] at hr2
              injection hr2 with hxq _
              have hxw : isJsWs x = true := hw1 x (by simp)
              rw [hxq, hqfacts.2.2.2] at hxw
              exact Bool.noConfusion hxw
      | cons c1 k' =>
          rw [List.cons_append] at hk2
          injection hk2 with he1 he2
          have : ('"' : Char) ∈ q :: qs := by
            rw [hk1]
            exact List.mem_append_right p (he1 ▸ by simp)
          exact hnotq this
    · -- p = prop ++ k  and  '"' :: (w1 ++ ':' :: w2) = k ++ '"' :: s2
      cases k with
      | nil =>
          rw [List.nil_append] at hk2
          injection hk2 with _ he
          cases w1 with
          | nil =>
              rw [List.nil_append] at he
              rw [hr2, List.cons_append] at he
              injection he with hcq _
              exact hqfacts.2.2.1 hcq.symm
          | cons x xs =>
              rw [List.cons_append] at he
              rw [hr2, List.cons_append] at he
              injection he with hxq _
              have hxw : isJsWs x = true := hw1 x (by simp)
              rw [hxq, hqfacts.2.2.2] at hxw
              exact Bool.noConfusion hxw
      | cons c1 k' =>
          rw [List.cons_append] at hk2
          injection hk2 with he1 he2
          have hqmem : ('"' : Char) ∈ w1 ++ ':' :: w2 := by
            rw [he2]; simp
          rcases List.mem_append.mp hqmem with hm1 | hm1
          · have := hw1 '"' hm1
            rw [quote_not_ws] at this
            exact Bool.noConfusion this
          · rcases List.mem_cons.mp hm1 with hx | hm2
            · exact absurd hx (by decide)
            · have := hw2 '"' hm2
              rw [quote_not_ws] at this
              exact Bool.noConfusion this

/-- Walking a unit-complete quote-free body never stops, so the open-mode
scan distributes over append. -/
theorem scanBodyOpen_append_units (l : List Char) :
    unitsB l = true → ∀ m, scanBodyOpen (l ++ m) = l ++ scanBodyOpen m := by
  induction l using unitsB.induct with
  | case1 => intro _ m; simp
  | case2 rest2 => intro h; rw [unitsB.eq_def] at h; simp at h
  | case3 h3 => intro h; rw [unitsB.eq_def] at h; simp at h
  | case4 d rest2 h4 ih =>
      intro h m
      rw [unitsB.eq_def] at h
      simp at h
      rw [List.cons_append, List.cons_append, scanBodyOpen.eq_def]
      simp [ih h m]
  | case5 d rest2 hq hb ih =>
      intro h m
      rw [unitsB.eq_def] at h
      simp [hq, hb] at h
      have h' : unitsB rest2 = true := by
        cases rest2 with
        | nil => rfl
        | cons x xs => exact h
      rw [List.cons_append, scanBodyOpen.eq_def]
      simp [hq, hb, ih h' m]

/-- Monotone growth of the open-mode search: with an identifier-like field
name and no closed occurrence even in the extended text, the leftmost open
occurrence is stable and its partial body only grows at unit boundaries. -/
theorem findOpen_mono (prop : List Char) (hplain : plainProp prop = true)
    (m : List Char) :
    ∀ t b1, findOpen prop t = some b1 →
      closedOccurs prop (t ++ m) = false →
      ∃ u, unitsB b1 = true ∧ unitsB u = true ∧
        findOpen prop (t ++ m) = some (b1 ++ u) := by
  intro t
  induction t with
  | nil => intro b1 h; simp [findOpen] at h
  | cons c rest ih =>
      intro b1 h hnc
      rw [List.cons_append] at hnc
      cases hm : matchPrefixAt prop (c :: rest) with
      | some after =>
          rw [findOpen, hm] at h
          dsimp only at h
          have hb1 : b1 = scanBodyOpen after := by simpa using h.symm
          have hm2 : matchPrefixAt prop (c :: (rest ++ m)) = some (after ++ m) := by
            have := matchPrefixAt_append prop (c :: rest) m after hm
            simpa using this
          have hscm : scanBodyClosed (after ++ m) = none := by
            cases hsc : scanBodyClosed (after ++ m) with
            | none => rfl
            | some bb =>
                exfalso
                have hco : closedOccurs prop (c :: (rest ++ m)) = true := by
                  rw [closedOccurs, hm2]
                  dsimp only
                  rw [hsc]
                  simp
                rw [hco] at hnc
                exact Bool.noConfusion hnc
          have hsca : scanBodyClosed after = none := by
            cases hsc : scanBodyClosed after with
            | none => rfl
            | some bb =>
                exact absurd (scanBodyClosed_append after m bb hsc) (by simp [hscm])
          have hu : unitsB b1 = true := by rw [hb1]; exact scanBodyOpen_units after
          rcases scanBodyOpen_shape after hsca with hsh | hsh
          · -- `after` itself is unit-complete: `b1 = after`
            refine ⟨scanBodyOpen m, hu, scanBodyOpen_units m, ?_⟩
            rw [List.cons_append, findOpen, hm2]
            dsimp only
            have hba : b1 = after := by rw [hb1, ← hsh]
            rw [hba]
            have huafter : unitsB after = true := by rw [← hba]; exact hu
            rw [scanBodyOpen_append_units after huafter m]
          · -- `after` ends in a dangling backslash: it pairs with the new text
            refine ⟨scanBodyOpen ('\\' :: m), hu, scanBodyOpen_units _, ?_⟩
            rw [List.cons_append, findOpen, hm2]
            dsimp only
            have hsplit : after ++ m = b1 ++ ('\\' :: m) := by
              rw [hsh, ← hb1]
              simp
            rw [hsplit, scanBodyOpen_append_units b1 hu ('\\' :: m)]
      | none =>
          rw [findOpen, hm] at h
          dsimp only at h
          have hm2 : matchPrefixAt prop (c :: (rest ++ m)) = none := by
            cases hm2 : matchPrefixAt prop (c :: (rest ++ m)) with
            | none => rfl
            | some a2 =>
                exfalso
                have hpre : patPre prop (c :: rest) :=
                  matchPrefixAt_none_some prop (c :: rest) m a2 hm
                    (by rw [List.cons_append]; exact hm2)
                obtain ⟨p, s, aft, hps, hmt, _⟩ := findOpen_some prop rest b1 h
                exact patPre_no_interior prop hplain c rest hpre p s aft hps hmt
          have hnc' : closedOccurs prop (rest ++ m) = false := by
            rw [closedOccurs, hm2] at hnc
            simpa using hnc
          obtain ⟨u, hu, huu, hfo⟩ := ih b1 h hnc'
          refine ⟨u, hu, huu, ?_⟩
          rw [List.cons_append, findOpen, hm2]
          dsimp only
          exact hfo

/-! #### The escape-replacement chain

The five global replaces commute with list structure in restricted ways:
a leading character other than backslash passes through every pass, and the
passes act on a leading backslash run by the formulas below.  These
formulas make the decoded value grow monotonically when a unit-complete
body is extended. -/

theorem replace2_cons_ne (a b : Char) (r : List Char) (c : Char) (l : List Char)
    (hc : c ≠ a) : replace2 a b r (c :: l) = c :: replace2 a b r l := by
  cases l with
  | nil => rfl
  | cons d rest =>
      rw [replace2, if_neg (by rintro ⟨h1, _⟩; exact hc h1)]

theorem replace2_cons_pair (a b : Char) (r : List Char) (l : List Char) :
    replace2 a b r (a :: b :: l) = r ++ replace2 a b r l := by
  rw [replace2, if_pos ⟨rfl, rfl⟩]

/-- Which escapes the chain decodes, pass by pass. -/
def escOf (c : Char) : Option Char :=
  if c = 'n' then some '\n'
  else if c = 'r' then some '\r'
  else if c = 't' then some '\t'
  else if c = '"' then some '"'
  else none

theorem decodeEscapes_cons_ne (c : Char) (l : List Char) (hc : c ≠ '\\') :
    decodeEscapes (c :: l) = c :: decodeEscapes l := by
  unfold decodeEscapes
  rw [replace2_cons_ne _ _ _ _ _ hc, replace2_cons_ne _ _ _ _ _ hc,
      replace2_cons_ne _ _ _ _ _ hc, replace2_cons_ne _ _ _ _ _ hc,
      replace2_cons_ne _ _ _ _ _ hc]

theorem decodeEscapes_nil : decodeEscapes [] = [] := rfl

theorem replace2_run_nomatch (b : Char) (r : List Char) (hb : b ≠ '\\')
    (w : List Char) (hw : w.head? ≠ some b) :
    ∀ k, replace2 '\\' b r (List.replicate k '\\' ++ w) =
      List.replicate k '\\' ++ replace2 '\\' b r w := by
  intro k
  induction k with
  | zero => simp
  | succ n ihn =>
      rw [List.replicate_succ, List.cons_append]
      cases n with
      | zero =>
          simp only [List.replicate, List.nil_append]
          cases w with
          | nil => rfl
          | cons x xs =>
              have hx : ¬('\\' = '\\' ∧ x = b) := by
                rintro ⟨_, h2⟩
                exact hw (by simp [h2])
              rw [replace2, if_neg hx]
              rfl
      | succ n2 =>
          rw [List.replicate_succ, List.cons_append, replace2,
              if_neg (by rintro ⟨_, h2⟩; exact hb h2.symm)]
          rw [← List.cons_append, ← List.replicate_succ, ihn]
          rw [List.replicate_succ, List.cons_append]
          simp

theorem replace2_run_match (b : Char) (r : List Char) (hb : b ≠ '\\')
    (w' : List Char) :
    ∀ k, 1 ≤ k → replace2 '\\' b r (List.replicate k '\\' ++ b :: w') =
      List.replicate (k - 1) '\\' ++ r ++ replace2 '\\' b r w' := by
  intro k
  induction k with
  | zero => intro h; exact absurd h (by omega)
  | succ n ihn =>
      intro _
      rw [List.replicate_succ, List.cons_append]
      cases n with
      | zero =>
          simp only [List.replicate, List.nil_append]
          rw [replace2_cons_pair]
      | succ n2 =>
          rw [List.replicate_succ, List.cons_append, replace2,
              if_neg (by rintro ⟨_, h2⟩; exact hb h2.symm)]
          rw [← List.cons_append, ← List.replicate_succ, ihn (by omega)]
          have harith : n2 + 1 + 1 - 1 = (n2 + 1 - 1) + 1 := by omega
          rw [harith, List.replicate_succ, List.cons_append, List.cons_append]

theorem replace2_bs_run (w : List Char) (hw : w.head? ≠ some '\\') :
    ∀ k, replace2 '\\' '\\' ['\\'] (List.replicate k '\\' ++ w) =
      List.replicate ((k + 1) / 2) '\\' ++ replace2 '\\' '\\' ['\\'] w := by
  intro k
  induction k using Nat.strong_induction_on with
  | _ k ihk =>
      match k with
      | 0 => simp
      | 1 =>
          have h1 : List.replicate 1 '\\' ++ w = '\\' :: w := by simp
          rw [h1]
          cases w with
          | nil => simp [replace2]
          | cons x xs =>
              have hx : ¬('\\' = '\\' ∧ x = '\\') := by
                rintro ⟨_, h2⟩
                exact hw (by simp [h2])
              rw [replace2, if_neg hx]
              simp [replace2_cons_ne]
      | (n + 2) =>
          rw [List.replicate_succ, List.replicate_succ, List.cons_append,
              List.cons_append, replace2_cons_pair]
          rw [ihk n (by omega)]
          have harith : (n + 2 + 1) / 2 = (n + 1) / 2 + 1 := by omega
          rw [harith, List.replicate_succ]
          rfl

/-- Every list splits off its maximal leading backslash run. -/
theorem leadRun (y : List Char) :
    ∃ j w, y = List.replicate j '\\' ++ w ∧ w.head? ≠ some '\\' := by
  induction y with
  | nil => exact ⟨0, [], rfl, by simp⟩
  | cons x xs ih =>
      by_cases hx : x = '\\'
      · obtain ⟨j, w, hw, hh⟩ := ih
        subst hx
        exact ⟨j + 1, w, by rw [List.replicate_succ, List.cons_append, hw], hh⟩
      · exact ⟨0, x :: xs, by simp, by simp [hx]⟩

/-- A pass that neither hits the run boundary nor the head character. -/
theorem replace2_run_skip (b : Char) (r : List Char) (hb : b ≠ '\\')
    (x : Char) (z : List Char) (hx1 : x ≠ b) (hx2 : x ≠ '\\') (k : Nat) :
    replace2 '\\' b r (List.replicate k '\\' ++ x :: z) =
      List.replicate k '\\' ++ x :: replace2 '\\' b r z := by
  rw [replace2_run_nomatch b r hb (x :: z) (by simp [hx1]) k,
      replace2_cons_ne _ _ _ _ _ hx2]

/-- The chain on a backslash run followed by a decodable escape letter:
the letter pairs with the run's last backslash. -/
theorem decodeEscapes_run_esc (e x : Char) (hesc : escOf e = some x) (w' : List Char)
    (k : Nat) (hk : 1 ≤ k) :
    decodeEscapes (List.replicate k '\\' ++ e :: w') =
      List.replicate (k / 2) '\\' ++ x :: decodeEscapes w' := by
  have harith : (k - 1 + 1) / 2 = k / 2 := by omega
  unfold decodeEscapes
  by_cases he1 : e = 'n'
  · subst he1
    have hx : x = '\n' := by have := hesc; simp [escOf] at this; exact this.symm
    subst hx
    rw [replace2_run_match 'n' ['\n'] (by decide) w' k hk, List.append_assoc]
    have hsingle : (['\n'] : List Char) ++ replace2 '\\' 'n' ['\n'] w' =
        '\n' :: replace2 '\\' 'n' ['\n'] w' := rfl
    rw [hsingle,
        replace2_run_skip 'r' ['\r'] (by decide) '\n' _ (by decide) (by decide),
        replace2_run_skip 't' ['\t'] (by decide) '\n' _ (by decide) (by decide),
        replace2_run_skip '"' ['"'] (by decide) '\n' _ (by decide) (by decide),
        replace2_bs_run ('\n' :: _) (by simp) (k - 1),
        replace2_cons_ne _ _ _ _ _ (by decide), harith]
  · by_cases he2 : e = 'r'
    · subst he2
      have hx : x = '\r' := by have := hesc; simp [escOf] at this; exact this.symm
      subst hx
      rw [replace2_run_skip 'n' ['\n'] (by decide) 'r' _ (by decide) (by decide),
          replace2_run_match 'r' ['\r'] (by decide) _ k hk, List.append_assoc]
      have hsingle : (['\r'] : List Char) ++
          replace2 '\\' 'r' ['\r'] (replace2 '\\' 'n' ['\n'] w') =
          '\r' :: replace2 '\\' 'r' ['\r'] (replace2 '\\' 'n' ['\n'] w') := rfl
      rw [hsingle,
          replace2_run_skip 't' ['\t'] (by decide) '\r' _ (by decide) (by decide),
          replace2_run_skip '"' ['"'] (by decide) '\r' _ (by decide) (by decide),
          replace2_bs_run ('\r' :: _) (by simp) (k - 1),
          replace2_cons_ne _ _ _ _ _ (by decide), harith]
    · by_cases he3 : e = 't'
      · subst he3
        have hx : x = '\t' := by have := hesc; simp [escOf] at this; exact this.symm
        subst hx
        rw [replace2_run_skip 'n' ['\n'] (by decide) 't' _ (by decide) (by decide),
            replace2_run_skip 'r' ['\r'] (by decide) 't' _ (by decide) (by decide),
            replace2_run_match 't' ['\t'] (by decide) _ k hk, List.append_assoc]
        have hsingle : (['\t'] : List Char) ++
            replace2 '\\' 't' ['\t']
              (replace2 '\\' 'r' ['\r'] (replace2 '\\' 'n' ['\n'] w')) =
            '\t' :: replace2 '\\' 't' ['\t']
              (replace2 '\\' 'r' ['\r'] (replace2 '\\' 'n' ['\n'] w')) := rfl
        rw [hsingle,
            replace2_run_skip '"' ['"'] (by decide) '\t' _ (by decide) (by decide),
            replace2_bs_run ('\t' :: _) (by simp) (k - 1),
            replace2_cons_ne _ _ _ _ _ (by decide), harith]
      · by_cases he4 : e = '"'
        · subst he4
          have hx : x = '"' := by have := hesc; simp [escOf] at this; exact this.symm
          subst hx
          rw [replace2_run_skip 'n' ['\n'] (by decide) '"' _ (by decide) (by decide),
              replace2_run_skip 'r' ['\r'] (by decide) '"' _ (by decide) (by decide),
              replace2_run_skip 't' ['\t'] (by decide) '"' _ (by decide) (by decide),
              replace2_run_match '"' ['"'] (by decide) _ k hk, List.append_assoc]
          have hsingle : (['"'] : List Char) ++
              replace2 '\\' '"' ['"']
                (replace2 '\\' 't' ['\t']
                  (replace2 '\\' 'r' ['\r'] (replace2 '\\' 'n' ['\n'] w'))) =
              '"' :: replace2 '\\' '"' ['"']
                (replace2 '\\' 't' ['\t']
                  (replace2 '\\' 'r' ['\r'] (replace2 '\\' 'n' ['\n'] w'))) := rfl
          rw [hsingle,
              replace2_bs_run ('"' :: _) (by simp) (k - 1),
              replace2_cons_ne _ _ _ _ _ (by decide), harith]
        · exfalso
          rw [escOf, if_neg he1, if_neg he2, if_neg he3, if_neg he4] at hesc
          exact Option.noConfusion hesc

/-- The chain on a backslash run followed by a non-escape, non-backslash
character: the run collapses by pairing and the head passes through. -/
theorem decodeEscapes_run_other (x : Char) (z : List Char)
    (hx : x ≠ '\\') (hesc : escOf x = none) (k : Nat) :
    decodeEscapes (List.replicate k '\\' ++ x :: z) =
      List.replicate ((k + 1) / 2) '\\' ++ x :: decodeEscapes z := by
  have hn : x ≠ 'n' := by intro h; rw [h] at hesc; simp [escOf] at hesc
  have hr : x ≠ 'r' := by intro h; rw [h] at hesc; simp [escOf] at hesc
  have ht : x ≠ 't' := by intro h; rw [h] at hesc; simp [escOf] at hesc
  have hq : x ≠ '"' := by intro h; rw [h] at hesc; simp [escOf] at hesc
  unfold decodeEscapes
  rw [replace2_run_skip 'n' ['\n'] (by decide) x z hn hx k,
      replace2_run_skip 'r' ['\r'] (by decide) x _ hr hx k,
      replace2_run_skip 't' ['\t'] (by decide) x _ ht hx k,
      replace2_run_skip '"' ['"'] (by decide) x _ hq hx k,
      replace2_bs_run (x :: _) (by simp [hx]) k,
      replace2_cons_ne _ _ _ _ _ hx]

/-- The chain on a bare backslash run. -/
theorem decodeEscapes_run_nil (k : Nat) :
    decodeEscapes (List.replicate k '\\') = List.replicate ((k + 1) / 2) '\\' := by
  unfold decodeEscapes
  have hz : List.replicate k '\\' = List.replicate k '\\' ++ ([] : List Char) := by simp
  rw [hz,
      replace2_run_nomatch 'n' ['\n'] (by decide) [] (by simp) k]
  rw [show replace2 '\\' 'n' ['\n'] [] = [] from rfl, List.append_nil]
  rw [hz, replace2_run_nomatch 'r' ['\r'] (by decide) [] (by simp) k]
  rw [show replace2 '\\' 'r' ['\r'] [] = [] from rfl, List.append_nil]
  rw [hz, replace2_run_nomatch 't' ['\t'] (by decide) [] (by simp) k]
  rw [show replace2 '\\' 't' ['\t'] [] = [] from rfl, List.append_nil]
  rw [hz, replace2_run_nomatch '"' ['"'] (by decide) [] (by simp) k]
  rw [show replace2 '\\' '"' ['"'] [] = [] from rfl, List.append_nil]
  rw [hz, replace2_bs_run [] (by simp) k]
  rw [show replace2 '\\' '\\' ['\\'] [] = [] from rfl, List.append_nil]

theorem concat_tail_of_cons (c0 : Char) (rest y : List Char) (c : Char)
    (h : c0 :: rest = y ++ [c]) (hr : rest ≠ []) : ∃ y2, rest = y2 ++ [c] := by
  cases y with
  | nil =>
      injection h with _ h2
      exact absurd h2 hr
  | cons y0 ys =>
      rw [List.cons_append] at h
      injection h with _ h2
      exact ⟨ys, h2⟩

theorem concat_tail_of_cons2 (c0 d : Char) (rest y : List Char) (c : Char)
    (h : c0 :: d :: rest = y ++ [c]) (hr : rest ≠ []) : ∃ y2, rest = y2 ++ [c] := by
  obtain ⟨y2, hy2⟩ := concat_tail_of_cons c0 (d :: rest) y c h (by simp)
  exact concat_tail_of_cons d rest y2 c hy2 hr

/-- A pass splits over an append whose left part ends in a character other
than the pattern's first character. -/
theorem replace2_append_lastne (a b : Char) (r : List Char) :
    ∀ (n : Nat) (u : List Char), u.length ≤ n → ∀ v y c, u = y ++ [c] → c ≠ a →
      replace2 a b r (u ++ v) = replace2 a b r u ++ replace2 a b r v := by
  intro n
  induction n with
  | zero =>
      intro u hu v y c hyc _
      subst hyc
      simp at hu
  | succ n ihn =>
      intro u hu v y c hyc hc
      cases u with
      | nil => cases y <;> simp at hyc
      | cons c0 u' =>
          cases u' with
          | nil =>
              have hcc : c0 = c := by
                cases y with
                | nil =>
                    simpa using hyc
                | cons y0 ys =>
                    rw [List.cons_append] at hyc
                    injection hyc with _ h2
                    exact absurd h2.symm (by simp)
              subst hcc
              cases v with
              | nil => simp [replace2]
              | cons d vs =>
                  have hstep : ([c0] : List Char) ++ d :: vs = c0 :: d :: vs := rfl
                  rw [hstep, replace2_cons_ne a b r c0 (d :: vs) hc]
                  rfl
          | cons d u'' =>
              by_cases hm : c0 = a ∧ d = b
              · rw [List.cons_append, List.cons_append, replace2, if_pos hm]
                conv_rhs => rw [replace2, if_pos hm]
                rw [List.append_assoc]
                congr 1
                cases u'' with
                | nil => simp [replace2]
                | cons e u3 =>
                    obtain ⟨y2, hy2⟩ :=
                      concat_tail_of_cons2 c0 d (e :: u3) y c hyc (by simp)
                    exact ihn (e :: u3) (by simp at hu ⊢; omega) v y2 c hy2 hc
              · rw [List.cons_append, List.cons_append, replace2, if_neg hm]
                conv_rhs => rw [replace2, if_neg hm]
                obtain ⟨y2, hy2⟩ :=
                  concat_tail_of_cons c0 (d :: u'') y c hyc (by simp)
                rw [← List.cons_append,
                    ihn (d :: u'') (by simp at hu ⊢; omega) v y2 c hy2 hc]
                rfl

/-- A pass whose replacement is free of backslashes keeps a trailing
non-backslash character (possibly replacing it). -/
theorem replace2_lastne (a b : Char) (r : List Char) (hr : ∀ x ∈ r, x ≠ '\\')
    (hrne : r ≠ []) :
    ∀ (n : Nat) (u : List Char), u.length ≤ n → ∀ y c, u = y ++ [c] → c ≠ '\\' →
      ∃ y' c', replace2 a b r u = y' ++ [c'] ∧ c' ≠ '\\' := by
  intro n
  induction n with
  | zero =>
      intro u hu y c hyc _
      subst hyc
      simp at hu
  | succ n ihn =>
      intro u hu y c hyc hc
      cases u with
      | nil => cases y <;> simp at hyc
      | cons c0 u' =>
          cases u' with
          | nil =>
              have hcc : c0 = c := by
                cases y with
                | nil =>
                    simpa using hyc
                | cons y0 ys =>
                    rw [List.cons_append] at hyc
                    injection hyc with _ h2
                    exact absurd h2.symm (by simp)
              subst hcc
              exact ⟨[], c0, rfl, hc⟩
          | cons d u'' =>
              by_cases hm : c0 = a ∧ d = b
              · rw [replace2, if_pos hm]
                cases u'' with
                | nil =>
                    rcases List.eq_nil_or_concat r with rfl | ⟨L, bb, rfl⟩
                    · exact absurd rfl hrne
                    · refine ⟨L, bb, by simp [replace2], hr bb (by simp)⟩
                | cons e u3 =>
                    obtain ⟨y2, hy2⟩ :=
                      concat_tail_of_cons2 c0 d (e :: u3) y c hyc (by simp)
                    obtain ⟨y', c', h', hc'⟩ :=
                      ihn (e :: u3) (by simp at hu ⊢; omega) y2 c hy2 hc
                    exact ⟨r ++ y', c', by rw [h', List.append_assoc], hc'⟩
              · rw [replace2, if_neg hm]
                obtain ⟨y2, hy2⟩ :=
                  concat_tail_of_cons c0 (d :: u'') y c hyc (by simp)
                obtain ⟨y', c', h', hc'⟩ :=
                  ihn (d :: u'') (by simp at hu ⊢; omega) y2 c hy2 hc
                exact ⟨c0 :: y', c', by rw [h']; rfl, hc'⟩

/-- The full chain splits over an append whose left part ends in a
non-backslash character. -/
theorem decodeEscapes_append_lastne (u v y : List Char) (c : Char)
    (hu : u = y ++ [c]) (hc : c ≠ '\\') :
    decodeEscapes (u ++ v) = decodeEscapes u ++ decodeEscapes v := by
  have e1 := replace2_append_lastne '\\' 'n' ['\n'] u.length u (le_refl _)
    (v) y c hu hc
  obtain ⟨y1, c1, h1, hc1⟩ := replace2_lastne '\\' 'n' ['\n'] (by decide)
    (by decide) u.length u (le_refl _) y c hu hc
  have e2 := replace2_append_lastne '\\' 'r' ['\r'] _ _ (le_refl _)
    (replace2 '\\' 'n' ['\n'] v) y1 c1 h1 hc1
  obtain ⟨y2, c2, h2, hc2⟩ := replace2_lastne '\\' 'r' ['\r'] (by decide)
    (by decide) _ _ (le_refl _) y1 c1 h1 hc1
  have e3 := replace2_append_lastne '\\' 't' ['\t'] _ _ (le_refl _)
    (replace2 '\\' 'r' ['\r'] (replace2 '\\' 'n' ['\n'] v)) y2 c2 h2 hc2
  obtain ⟨y3, c3, h3, hc3⟩ := replace2_lastne '\\' 't' ['\t'] (by decide)
    (by decide) _ _ (le_refl _) y2 c2 h2 hc2
  have e4 := replace2_append_lastne '\\' '"' ['"'] _ _ (le_refl _)
    (replace2 '\\' 't' ['\t'] (replace2 '\\' 'r' ['\r'] (replace2 '\\' 'n' ['\n'] v)))
    y3 c3 h3 hc3
  obtain ⟨y4, c4, h4, hc4⟩ := replace2_lastne '\\' '"' ['"'] (by decide)
    (by decide) _ _ (le_refl _) y3 c3 h3 hc3
  have e5 := replace2_append_lastne '\\' '\\' ['\\'] _ _ (le_refl _)
    (replace2 '\\' '"' ['"'] (replace2 '\\' 't' ['\t']
      (replace2 '\\' 'r' ['\r'] (replace2 '\\' 'n' ['\n'] v)))) y4 c4 h4 hc4
  unfold decodeEscapes
  rw [e1, e2, e3, e4, e5]

/-- Every unit-complete body is a prefix followed by an even trailing
backslash run, the prefix being empty or ending in a non-backslash. -/
theorem units_trailing_run (x : List Char) :
    unitsB x = true →
      ∃ x0 mm, x = x0 ++ List.replicate (2 * mm) '\\' ∧
        (x0 = [] ∨ ∃ y c, x0 = y ++ [c] ∧ c ≠ '\\') := by
  induction x using unitsB.induct with
  | case1 => intro _; exact ⟨[], 0, by simp, Or.inl rfl⟩
  | case2 rest2 => intro h; rw [unitsB.eq_def] at h; simp at h
  | case3 h3 => intro h; rw [unitsB.eq_def] at h; simp at h
  | case4 d rest2 h4 ih =>
      intro h
      rw [unitsB.eq_def] at h
      simp at h
      obtain ⟨x0, mm, hx, hl⟩ := ih h
      by_cases hd : d = '\\'
      · rcases hl with rfl | ⟨y, c, rfl, hc⟩
        · subst hd
          rw [List.nil_append] at hx
          refine ⟨[], mm + 1, ?_, Or.inl rfl⟩
          rw [List.nil_append, hx]
          have harith : 2 * (mm + 1) = (2 * mm) + 1 + 1 := by omega
          rw [harith, List.replicate_succ, List.replicate_succ]
        · exact ⟨'\\' :: d :: (y ++ [c]), mm, by rw [hx]; rfl,
            Or.inr ⟨'\\' :: d :: y, c, rfl, hc⟩⟩
      · rcases hl with rfl | ⟨y, c, rfl, hc⟩
        · exact ⟨['\\', d], mm, by rw [hx]; rfl,
            Or.inr ⟨['\\'], d, rfl, hd⟩⟩
        · exact ⟨'\\' :: d :: (y ++ [c]), mm, by rw [hx]; rfl,
            Or.inr ⟨'\\' :: d :: y, c, rfl, hc⟩⟩
  | case5 d rest2 hq hb ih =>
      intro h
      rw [unitsB.eq_def] at h
      simp [hq, hb] at h
      have h' : unitsB rest2 = true := by
        cases rest2 with
        | nil => rfl
        | cons xx xs => exact h
      obtain ⟨x0, mm, hx, hl⟩ := ih h'
      rcases hl with rfl | ⟨y, c, rfl, hc⟩
      · exact ⟨[d], mm, by rw [hx]; rfl, Or.inr ⟨[], d, rfl, hb⟩⟩
      · exact ⟨d :: (y ++ [c]), mm, by rw [hx]; rfl,
          Or.inr ⟨d :: y, c, rfl, hc⟩⟩

/-- Decoding an even backslash run followed by anything keeps the halved
run as a prefix of the result. -/
theorem decode_run_pre (k : Nat) (y : List Char) :
    ∃ t, decodeEscapes (List.replicate (2 * k) '\\' ++ y) =
      List.replicate k '\\' ++ t := by
  obtain ⟨j, w, rfl, hw⟩ := leadRun y
  rw [← List.append_assoc, ← List.replicate_add]
  cases w with
  | nil =>
      rw [List.append_nil, decodeEscapes_run_nil (2 * k + j)]
      refine ⟨List.replicate ((j + 1) / 2) '\\', ?_⟩
      rw [← List.replicate_add]
      congr 1
      omega
  | cons x xs =>
      have hx : x ≠ '\\' := by intro hh; exact hw (by simp [hh])
      cases hesc : escOf x with
      | some e =>
          cases Nat.eq_zero_or_pos (2 * k + j) with
          | inl hzero =>
              have hk0 : k = 0 := by omega
              subst hk0
              exact ⟨decodeEscapes (List.replicate (2 * 0 + j) '\\' ++ x :: xs),
                by simp⟩
          | inr hpos =>
              rw [decodeEscapes_run_esc x e hesc xs (2 * k + j) hpos]
              refine ⟨List.replicate ((2 * k + j) / 2 - k) '\\' ++
                e :: decodeEscapes xs, ?_⟩
              rw [← List.append_assoc, ← List.replicate_add]
              congr 2
              omega
      | none =>
          rw [decodeEscapes_run_other x xs hx hesc (2 * k + j)]
          refine ⟨List.replicate ((2 * k + j + 1) / 2 - k) '\\' ++
            x :: decodeEscapes xs, ?_⟩
          rw [← List.append_assoc, ← List.replicate_add]
          congr 2
          omega

/-- **Decode monotonicity.** Extending a unit-complete body only extends
its decoded value. -/
theorem decode_mono_units (x : List Char) (hx : unitsB x = true) (y : List Char) :
    ∃ t, decodeEscapes (x ++ y) = decodeEscapes x ++ t := by
  obtain ⟨x0, mm, rfl, hl⟩ := units_trailing_run x hx
  rcases hl with rfl | ⟨y0, c, hx0, hc⟩
  · obtain ⟨t, ht⟩ := decode_run_pre mm y
    refine ⟨t, ?_⟩
    simp only [List.nil_append]
    rw [ht, decodeEscapes_run_nil (2 * mm)]
    have harith : (2 * mm + 1) / 2 = mm := by omega
    rw [harith]
  · obtain ⟨t, ht⟩ := decode_run_pre mm y
    have hsplit1 : decodeEscapes (x0 ++ List.replicate (2 * mm) '\\' ++ y) =
        decodeEscapes x0 ++ decodeEscapes (List.replicate (2 * mm) '\\' ++ y) := by
      rw [List.append_assoc]
      exact decodeEscapes_append_lastne x0 _ y0 c hx0 hc
    have hsplit2 : decodeEscapes (x0 ++ List.replicate (2 * mm) '\\') =
        decodeEscapes x0 ++ decodeEscapes (List.replicate (2 * mm) '\\') :=
      decodeEscapes_append_lastne x0 _ y0 c hx0 hc
    refine ⟨t, ?_⟩
    rw [hsplit1, ht, hsplit2, decodeEscapes_run_nil (2 * mm)]
    have harith : (2 * mm + 1) / 2 = mm := by omega
    rw [harith, List.append_assoc]

/-- **C3.** The stream field extractor is monotonic under stream growth:
for texts `t1` and `t2 = t1 ++ s` where the field's closing quote has not
yet appeared in `t2` (no closed occurrence of `"field"\s*:\s*"..."`), and
an identifier-like field name (as all call sites use: `thought`,
`final_answer`, `plan`), if extraction on `t1` yields a value then
extraction on `t2` yields a value having the `t1` value as a prefix
(equal or longer). -/
theorem C3_extractor_monotonic (t1 s propName : String)
    (hplain : plainProp propName.data = true)
    (hnoclose : closedOccurs propName.data (t1 ++ s).data = false)
    (v1 : String) (h1 : extractJSONString t1 propName = some v1) :
    ∃ v2 ext, extractJSONString (t1 ++ s) propName = some v2 ∧ v2 = v1 ++ ext := by
  rw [String.data_append] at hnoclose
  have hnc1 : closedOccurs propName.data t1.data = false := by
    cases hcx : closedOccurs propName.data t1.data with
    | false => rfl
    | true =>
        have hext := closedOccurs_append propName.data t1.data s.data hcx
        rw [hext] at hnoclose
        exact Bool.noConfusion hnoclose
  have hfc1 : findClosed propName.data t1.data = none :=
    (findClosed_none_iff _ _).mpr hnc1
  have hfc2 : findClosed propName.data (t1.data ++ s.data) = none :=
    (findClosed_none_iff _ _).mpr hnoclose
  obtain ⟨b1, hb1, hv1⟩ : ∃ b1, findOpen propName.data t1.data = some b1 ∧
      v1 = String.mk (decodeEscapes b1) := by
    unfold extractJSONString at h1
    rw [hfc1] at h1
    dsimp only at h1
    cases ho : findOpen propName.data t1.data with
    | none => rw [ho] at h1; exact absurd h1 (by simp)
    | some b =>
        rw [ho] at h1
        refine ⟨b, rfl, ?_⟩
        injection h1 with h2
        exact h2.symm
  obtain ⟨u, hu, _, hfo⟩ :=
    findOpen_mono propName.data hplain s.data t1.data b1 hb1 hnoclose
  obtain ⟨tail, htail⟩ := decode_mono_units b1 hu u
  refine ⟨String.mk (decodeEscapes (b1 ++ u)), String.mk tail, ?_, ?_⟩
  · unfold extractJSONString
    rw [String.data_append, hfc2]
    dsimp only
    rw [hfo]
  · rw [htail, hv1]
    rfl

/-- Witness for C3 at the spec's example pair of texts. -/
theorem C3_extractor_monotonic_witness :
    plainProp "thought".data = true ∧
    closedOccurs "thought".data ("\x7b\"thought\":\"Look" ++ "ing for file").data = false ∧
    extractJSONString "\x7b\"thought\":\"Look" "thought" = some "Look" ∧
    ∃ v2 ext,
      extractJSONString ("\x7b\"thought\":\"Look" ++ "ing for file") "thought" = some v2 ∧
      v2 = "Look" ++ ext := by
  refine ⟨by decide, by decide, by decide, ?_⟩
  obtain ⟨v2, ext, hv2, he⟩ := C3_extractor_monotonic "\x7b\"thought\":\"Look"
    "ing for file" "thought" (by decide) (by decide) "Look" (by decide)
  exact ⟨v2, ext, hv2, he⟩

/-! ### Final response parser (geminiService.ts, end of `runAgent`)

After the stream closes, `runAgent` checks the raw accumulated text for
emptiness, trims it, strips a leading/trailing Markdown code fence, and
hands it to `JSON.parse`, casting the result with `as AgentResponse` — a
compile-time cast with no runtime validation.  `JSON.parse` is embedded as
a fuel-based parser of the JSON grammar; string and number lexemes are
kept raw, since the final parse never inspects them. -/

/-- JSON values as produced by `JSON.parse`. -/
inductive Json where
  | null : Json
  | bool (b : Bool) : Json
  | num (lexeme : String) : Json
  | str (raw : String) : Json
  | arr (items : List Json) : Json
  | obj (fields : List (String × Json)) : Json

/-- JSON's insignificant whitespace. -/
def jsonWs (c : Char) : Bool := c = ' ' || c = '\t' || c = '\n' || c = '\r'

def skipJWs : List Char → List Char
  | [] => []
  | c :: rest => if jsonWs c then skipJWs rest else c :: rest

def isHexDigit (c : Char) : Bool :=
  c.isDigit || ('a' ≤ c && c ≤ 'f') || ('A' ≤ c && c ≤ 'F')

/-- Body of a JSON string after the opening quote: validates escapes and
control characters, returns the raw body and the rest after the closing
quote. -/
def parseJStringBody : List Char → Option (List Char × List Char)
  | [] => none
  | c :: rest =>
      if c = '"' then some ([], rest)
      else if c = '\\' then
        match rest with
        | [] => none
        | e :: rest2 =>
            if e = 'u' then
              match rest2 with
              | h1 :: h2 :: h3 :: h4 :: rest3 =>
                  if isHexDigit h1 && isHexDigit h2 && isHexDigit h3 && isHexDigit h4 then
                    (parseJStringBody rest3).map
                      (fun p => ('\\' :: 'u' :: h1 :: h2 :: h3 :: h4 :: p.1, p.2))
                  else none
              | _ => none
            else if e = '"' || e = '\\' || e = '/' || e = 'b' || e = 'f' ||
                e = 'n' || e = 'r' || e = 't' then
              (parseJStringBody rest2).map (fun p => ('\\' :: e :: p.1, p.2))
            else none
      else if c.toNat < 32 then none
      else (parseJStringBody rest).map (fun p => (c :: p.1, p.2))

/-- Maximal digit run. -/
def digitRun : List Char → List Char × List Char
  | [] => ([], [])
  | c :: rest =>
      if c.isDigit then
        let p := digitRun rest
        (c :: p.1, p.2)
      else ([], c :: rest)

/-- JSON number lexeme: `-?(0|[1-9][0-9]*)(\.[0-9]+)?([eE][+-]?[0-9]+)?`. -/
def parseJNumber (l : List Char) : Option (List Char × List Char) :=
  let step1 : List Char × List Char :=
    match l with
    | '-' :: rest => (['-'], rest)
    | _ => ([], l)
  match step1.2 with
  | [] => none
  | c :: rest =>
      let intRes : Option (List Char × List Char) :=
        if c = '0' then some (step1.1 ++ ['0'], rest)
        else if c.isDigit then
          let p := digitRun rest
          some (step1.1 ++ c :: p.1, p.2)
        else none
      match intRes with
      | none => none
      | some (ip, l2) =>
          let fracRes : Option (List Char × List Char) :=
            match l2 with
            | '.' :: rest2 =>
                match digitRun rest2 with
                | ([], _) => none
                | (d, r) => some (ip ++ '.' :: d, r)
            | _ => some (ip, l2)
          match fracRes with
          | none => none
          | some (fp, l3) =>
              match l3 with
              | [] => some (fp, [])
              | e :: rest3 =>
                  if e = 'e' || e = 'E' then
                    let sp : List Char × List Char :=
                      match rest3 with
                      | s :: r4 => if s = '+' || s = '-' then ([s], r4) else ([], rest3)
                      | [] => ([], [])
                    match digitRun sp.2 with
                    | ([], _) => none
                    | (d, r) => some (fp ++ e :: (sp.1 ++ d), r)
                  else some (fp, l3)

mutual

/-- Fuel-based JSON value parser (the fuel bounds the nesting depth; every
recursive call strictly consumes input, so `length + 1` fuel suffices). -/
def parseJValue : Nat → List Char → Option (Json × List Char)
  | 0, _ => none
  | fuel + 1, l =>
      match skipJWs l with
      | [] => none
      | c :: rest =>
          if c = '{' then
            match skipJWs rest with
            | [] => none
            | d :: r2 =>
                if d = '}' then some (.obj [], r2)
                else parseJFields fuel (d :: r2) []
          else if c = '[' then
            match skipJWs rest with
            | [] => none
            | d :: r2 =>
                if d = ']' then some (.arr [], r2)
                else parseJItems fuel (d :: r2) []
          else if c = '"' then
            match parseJStringBody rest with
            | some (b, r) => some (.str (String.mk b), r)
            | none => none
          else if c = 't' then
            match rest with
            | 'r' :: 'u' :: 'e' :: r => some (.bool true, r)
            | _ => none
          else if c = 'f' then
            match rest with
            | 'a' :: 'l' :: 's' :: 'e' :: r => some (.bool false, r)
            | _ => none
          else if c = 'n' then
            match rest with
            | 'u' :: 'l' :: 'l' :: r => some (.null, r)
            | _ => none
          else if c = '-' || c.isDigit then
            match parseJNumber (c :: rest) with
            | some (lex, r) => some (.num (String.mk lex), r)
            | none => none
          else none

/-- Nonempty member list of a JSON object. -/
def parseJFields : Nat → List Char → List (String × Json) →
    Option (Json × List Char)
  | 0, _, _ => none
  | fuel + 1, l, acc =>
      match skipJWs l with
      | [] => none
      | c :: rest =>
          if c = '"' then
            match parseJStringBody rest with
            | none => none
            | some (k, r1) =>
                match skipJWs r1 with
                | [] => none
                | d :: r2 =>
                    if d = ':' then
                      match parseJValue fuel r2 with
                      | none => none
                      | some (v, r3) =>
                          match skipJWs r3 with
                          | [] => none
                          | e :: r4 =>
                              if e = ',' then
                                parseJFields fuel r4 (acc ++ [(String.mk k, v)])
                              else if e = '}' then
                                some (.obj (acc ++ [(String.mk k, v)]), r4)
                              else none
                    else none
          else none

/-- Nonempty item list of a JSON array. -/
def parseJItems : Nat → List Char → List Json → Option (Json × List Char)
  | 0, _, _ => none
  | fuel + 1, l, acc =>
      match parseJValue fuel l with
      | none => none
      | some (v, r1) =>
          match skipJWs r1 with
          | [] => none
          | e :: r2 =>
              if e = ',' then parseJItems fuel r2 (acc ++ [v])
              else if e = ']' then some (.arr (acc ++ [v]), r2)
              else none

end

/-- `JSON.parse`: a single value with only whitespace around it. -/
def parseJson (l : List Char) : Option Json :=
  match parseJValue (l.length + 1) l with
  | some (v, rest) => if skipJWs rest = [] then some v else none
  | none => none

/-- `String.prototype.trim` (ASCII whitespace fragment). -/
def jsTrimLeft : List Char → List Char
  | [] => []
  | c :: rest => if isJsWs c then jsTrimLeft rest else c :: rest

def jsTrim (l : List Char) : List Char :=
  (jsTrimLeft ((jsTrimLeft l).reverse)).reverse

/-- `startsWith` on character lists. -/
def strStarts : List Char → List Char → Bool
  | _, [] => true
  | [], _ :: _ => false
  | c :: cs, p :: ps => c = p && strStarts cs ps

/-- `endsWith` on character lists. -/
def strEnds (l suf : List Char) : Bool := strStarts l.reverse suf.reverse

/-- `replace(/```$/, '')`: drop one trailing fence. -/
def stripTrailingFence (t : List Char) : List Char :=
  if strEnds t "```".data then t.take (t.length - 3) else t

/-- The code-fence stripping of `runAgent`'s final parse: a leading
` ```json ` or ` ``` ` fence is removed together with one trailing fence. -/
def stripFences (t : List Char) : List Char :=
  if strStarts t "```json".data then stripTrailingFence (t.drop 7)
  else if strStarts t "```".data then stripTrailingFence (t.drop 3)
  else t

/-- The final parse at the end of `runAgent` (geminiService.ts 347-364):
empty check on the raw accumulated text, trim, code-fence stripping, then
`JSON.parse`.  The parsed value is returned as-is: the TypeScript
`as AgentResponse` cast performs no runtime validation. -/
def parseFinalResponse (fullText : String) : Except String Json :=
  if fullText = "" then .error "Empty response from Gemini"
  else
    match parseJson (stripFences (jsTrim fullText.data)) with
    | some j => .ok j
    | none => .error "Model returned invalid JSON format."

/-- Presence of a top-level field in a deserialized object. -/
def hasField (j : Json) (name : String) : Bool :=
  match j with
  | .obj fields => fields.any (fun f => f.1 = name)
  | _ => false

/-- **C1 counterexample.** The claim says the final parse fails when a
required field (`thought`, `plan`, `actions`, `risk_assessment`) is absent
from the deserialized object.  It does not: the text `{}` deserializes
successfully and the empty object is returned although every required
field is absent — the malformed response is silently passed on. -/
theorem C1_missing_fields_not_rejected :
    parseFinalResponse "{}" = .ok (Json.obj []) ∧
    hasField (Json.obj []) "thought" = false ∧
    hasField (Json.obj []) "plan" = false ∧
    hasField (Json.obj []) "actions" = false ∧
    hasField (Json.obj []) "risk_assessment" = false := by
  exact ⟨rfl, rfl, rfl, rfl, rfl⟩

/-- **C1 (amended).** The final parse fails exactly when the raw
accumulated text is empty or JSON deserialization (after trimming and
code-fence stripping) fails; on success it returns the deserialized value
as-is, with no required-field validation. -/
theorem C1_final_parse_failure_conditions (fullText : String) :
    ((∃ e, parseFinalResponse fullText = .error e) ↔
      (fullText = "" ∨ parseJson (stripFences (jsTrim fullText.data)) = none))
  ∧ (∀ j, parseJson (stripFences (jsTrim fullText.data)) = some j → fullText ≠ "" →
      parseFinalResponse fullText = .ok j) := by
  constructor
  · constructor
    · rintro ⟨e, he⟩
      unfold parseFinalResponse at he
      by_cases h0 : fullText = ""
      · exact Or.inl h0
      · rw [if_neg h0] at he
        cases hp : parseJson (stripFences (jsTrim fullText.data)) with
        | some j => rw [hp] at he; exact absurd he (by simp)
        | none => exact Or.inr rfl
    · rintro (h0 | hp)
      · exact ⟨"Empty response from Gemini", by unfold parseFinalResponse; rw [if_pos h0]⟩
      · by_cases h0 : fullText = ""
        · exact ⟨"Empty response from Gemini", by unfold parseFinalResponse; rw [if_pos h0]⟩
        · refine ⟨"Model returned invalid JSON format.", ?_⟩
          unfold parseFinalResponse
          rw [if_neg h0, hp]
  · intro j hp h0
    unfold parseFinalResponse
    rw [if_neg h0, hp]

/-- Witness for the amended C1 at a concrete valid input. -/
theorem C1_final_parse_failure_conditions_witness :
    parseFinalResponse "\x7b\"a\":1\x7d" = .ok (Json.obj [("a", Json.num "1")]) :=
  (C1_final_parse_failure_conditions "\x7b\"a\":1\x7d").2
    (Json.obj [("a", Json.num "1")]) rfl (by decide)

/-! ### Action dispatcher (App.tsx, `performFileActions`)

The dispatcher executes one ordered batch of actions against the virtual
file store.  External collaborators (image generation, math evaluation,
web search, the script sandbox, browser `File` reading, `TextDecoder`,
video metadata probing) are oracles in a `DispatchEnv`; a thrown exception
of a collaborator is an `Except.error`.  The types mirror `types.ts` as
used by App.tsx and the response schema of geminiService.ts. -/

/-- The closed action-type enum (schema of geminiService.ts). -/
inductive ActionType where
  | read | write | append | move | delete | mkdir
  | generate_image | edit_image | compose_image
  | calculate_math | generate_video | trim_video
  | run_script | google_search
  deriving DecidableEq

/-- The runtime string value of an `ActionType` (the schema enum value,
used in template literals like `Action ${action.type} failed`). -/
def ActionType.toStr : ActionType → String
  | .read => "read"
  | .write => "write"
  | .append => "append"
  | .move => "move"
  | .delete => "delete"
  | .mkdir => "mkdir"
  | .generate_image => "generate_image"
  | .edit_image => "edit_image"
  | .compose_image => "compose_image"
  | .calculate_math => "calculate_math"
  | .generate_video => "generate_video"
  | .trim_video => "trim_video"
  | .run_script => "run_script"
  | .google_search => "google_search"

/-- An action of a model turn (`AgentAction` of types.ts; optional fields
are `undefined` when absent). -/
structure AgentAction where
  id : String
  type : ActionType
  path : String
  content : Option String := none
  source_path : Option String := none
  source_paths : Option (List String) := none
  description : Option String := none
  start_time : Option Int := none
  end_time : Option Int := none
  deriving DecidableEq

inductive FType where
  | file | directory
  deriving DecidableEq

/-- File payloads: resolved text, resolved binary bytes, or an unread
browser `File` handle (resolved through the environment). -/
inductive FileContent where
  | text (s : String)
  | bin (data : List Nat)
  | handle (key : String)
  deriving DecidableEq

/-- `VirtualFile` of types.ts. -/
structure VirtualFile where
  path : String
  name : String
  content : FileContent
  size : Nat
  ftype : FType
  lastModified : Nat
  mimeType : Option String := none
  deriving DecidableEq

/-- JS `Map` keyed by path: `get` finds the entry, `set` replaces in place
or appends, `delete` removes. -/
def storeGet (files : List VirtualFile) (p : String) : Option VirtualFile :=
  files.find? (fun f => f.path = p)

def storeSet : List VirtualFile → VirtualFile → List VirtualFile
  | [], nf => [nf]
  | f :: rest, nf => if f.path = nf.path then nf :: rest else f :: storeSet rest nf

def storeDelete : List VirtualFile → String → List VirtualFile
  | [], _ => []
  | f :: rest, p => if f.path = p then rest else f :: storeDelete rest p

def storeHas (files : List VirtualFile) (p : String) : Bool :=
  (storeGet files p).isSome

/-- The characters after the last dot (JS `split('.').pop()`; the whole
name when there is no dot). -/
def extChars (l : List Char) : List Char :=
  (l.reverse.takeWhile (fun c => c ≠ '.')).reverse

/-- utils/fileUtils.ts `getMimeType`. -/
def getMimeType (fileName : String) : String :=
  let ext := String.mk ((extChars fileName.data).map Char.toLower)
  if ext = "png" then "image/png"
  else if ext = "jpg" then "image/jpeg"
  else if ext = "jpeg" then "image/jpeg"
  else if ext = "webp" then "image/webp"
  else if ext = "pdf" then "application/pdf"
  else if ext = "mp3" then "audio/mp3"
  else if ext = "wav" then "audio/wav"
  else if ext = "ogg" then "audio/ogg"
  else if ext = "mp4" then "video/mp4"
  else if ext = "webm" then "video/webm"
  else if ext = "mov" then "video/mov"
  else if ext = "avi" then "video/avi"
  else if ext = "mpeg" then "video/mpeg"
  else if ext = "mpg" then "video/mpg"
  else if ext = "3gp" then "video/3gpp"
  else if ext = "wmv" then "video/wmv"
  else if ext = "flv" then "video/x-flv"
  else if ext = "json" then "application/json"
  else if ext = "txt" then "text/plain"
  else if ext = "js" then "text/javascript"
  else if ext = "ts" then "text/plain"
  else if ext = "tsx" then "text/plain"
  else if ext = "html" then "text/html"
  else if ext = "css" then "text/css"
  else if ext = "csv" then "text/csv"
  else "application/octet-stream"

/-- `path.split('/').pop() || path`. -/
def baseName (path : String) : String :=
  let last := String.mk ((path.data.reverse.takeWhile (fun c => c ≠ '/')).reverse)
  if last = "" then path else last

/-- utils/fileUtils.ts `isTextFile`: extension test, case-insensitive,
anchored at a dot before the end. -/
def isTextFile (fileName : String) : Bool :=
  let l := fileName.data.map Char.toLower
  (["txt", "md", "json", "js", "ts", "tsx", "jsx", "html", "css", "py", "c",
    "cpp", "h", "java", "xml", "yml", "yaml", "ini", "env", "csv", "log",
    "sh", "bat"] : List String).any (fun e => strEnds l ('.' :: e.data))

/-- A resolved file payload. -/
inductive Resolved where
  | text (s : String)
  | bin (d : List Nat)

/-- External collaborators of the dispatcher, as oracles; `.error` models a
thrown exception. -/
structure DispatchEnv where
  now : Nat
  resolveHandle : String → Except String Resolved
  decodeBytes : List Nat → String
  videoMetaInfo : VirtualFile → Option String
  genImage : String → Except String (List Nat)
  calcEval : String → Except String String
  search : String → Except String String
  transpile : String → Except String String
  runScriptOracle : String → Except String (List String)

/-- utils/fileUtils.ts `resolveFileContent`: resolved payloads are returned
as-is; a `File` handle is read through the environment (and may throw). -/
def resolveContent (env : DispatchEnv) (f : VirtualFile) : Except String Resolved :=
  match f.content with
  | .text s => .ok (.text s)
  | .bin d => .ok (.bin d)
  | .handle k => env.resolveHandle k

/-- Strings are used directly; bytes go through `TextDecoder`. -/
def asString (env : DispatchEnv) : Resolved → String
  | .text s => s
  | .bin d => env.decodeBytes d

/-- The result of one switch case: updated store, observations pushed,
attachments pushed. -/
structure ExecResult where
  files : List VirtualFile
  obs : List String
  att : List VirtualFile
  deriving DecidableEq

/-- One switch case of App.tsx `performFileActions` (lines 53-217), without
the duplicate check and the per-action catch.  Action types absent from
the switch (`edit_image`, `compose_image`, `generate_video`, `trim_video`)
fall through silently. -/
def execAction (env : DispatchEnv) (files : List VirtualFile)
    (a : AgentAction) : Except String ExecResult :=
  match a.type with
  | .read =>
      match storeGet files a.path with
      | some f =>
          if isTextFile f.name && f.size ≤ 10000 then
            match resolveContent env f with
            | .error e => .error e
            | .ok r =>
                .ok ⟨files, ["Action READ '" ++ a.path ++ "' success. Content:\n" ++
                  asString env r], []⟩
          else
            if f.size > 20 * 1024 * 1024 then
              .ok ⟨files, ["Action READ '" ++ a.path ++ "' failed: File is too large."], []⟩
            else
              let meta :=
                match f.mimeType with
                | some m =>
                    if strStarts m.data "video/".data then (env.videoMetaInfo f).getD ""
                    else ""
                | none => ""
              .ok ⟨files, ["Action READ '" ++ a.path ++
                "' success. Content attached for analysis." ++ meta], [f]⟩
      | none => .ok ⟨files, ["Action READ '" ++ a.path ++ "' failed: Not found."], []⟩
  | .write =>
      match a.content with
      | some c =>
          .ok ⟨storeSet files
              { path := a.path, name := baseName a.path, content := .text c,
                size := c.utf8ByteSize, ftype := .file, lastModified := env.now,
                mimeType := some (getMimeType a.path) },
            ["Action WRITE '" ++ a.path ++ "' success."], []⟩
      | none => .ok ⟨files, [], []⟩
  | .append =>
      match storeGet files a.path with
      | some existing =>
          if existing.size > 5 * 1024 * 1024 then
            .ok ⟨files, ["Action APPEND failed: File '" ++ a.path ++ "' is too large."], []⟩
          else
            match resolveContent env existing with
            | .error e => .error e
            | .ok r =>
                let newContent := asString env r ++ a.content.getD ""
                .ok ⟨storeSet files
                    { existing with
                      content := FileContent.text newContent,
                      size := newContent.utf8ByteSize,
                      lastModified := env.now },
                  ["Action APPEND '" ++ a.path ++ "' success."], []⟩
      | none =>
          match a.content with
          | some c =>
              if c = "" then .ok ⟨files, [], []⟩
              else
                .ok ⟨storeSet files
                    { path := a.path, name := baseName a.path, content := .text c,
                      size := c.utf8ByteSize, ftype := .file,
                      lastModified := env.now, mimeType := some "text/plain" },
                  ["Action APPEND '" ++ a.path ++ "' (new) success."], []⟩
          | none => .ok ⟨files, [], []⟩
  | .delete =>
      if storeHas files a.path then
        .ok ⟨storeDelete files a.path, ["Action DELETE '" ++ a.path ++ "' success."], []⟩
      else .ok ⟨files, ["Action DELETE '" ++ a.path ++ "' failed: Not found."], []⟩
  | .move =>
      match a.source_path with
      | some sp =>
          if sp ≠ "" ∧ storeHas files sp = true then
            match storeGet files sp with
            | some source =>
                .ok ⟨storeSet (storeDelete files sp)
                    { source with
                      path := a.path,
                      name := baseName a.path },
                  ["Action MOVE '" ++ sp ++ "' to '" ++ a.path ++ "' success."], []⟩
            | none => .ok ⟨files, ["Action MOVE failed: Not found."], []⟩
          else .ok ⟨files, ["Action MOVE failed: Not found."], []⟩
      | none => .ok ⟨files, ["Action MOVE failed: Not found."], []⟩
  | .mkdir =>
      .ok ⟨storeSet files
          { path := a.path, name := baseName a.path, content := .text "",
            size := 0, ftype := .directory, lastModified := env.now,
            mimeType := none },
        ["Action MKDIR '" ++ a.path ++ "' success."], []⟩
  | .generate_image =>
      match a.content with
      | some c =>
          if c = "" then .ok ⟨files, [], []⟩
          else
            match env.genImage c with
            | .error e => .error e
            | .ok bytes =>
                .ok ⟨storeSet files
                    { path := a.path, name := baseName a.path,
                      content := .bin bytes, size := bytes.length,
                      ftype := .file, lastModified := env.now,
                      mimeType := some "image/png" },
                  ["Action GENERATE_IMAGE '" ++ a.path ++ "' success."], []⟩
      | none => .ok ⟨files, [], []⟩
  | .calculate_math =>
      match a.content with
      | some c =>
          if c = "" then .ok ⟨files, [], []⟩
          else
            match env.calcEval c with
            | .ok r => .ok ⟨files, ["Action CALCULATE_MATH success. Result: " ++ r], []⟩
            | .error e => .ok ⟨files, ["Action CALCULATE_MATH failed: " ++ e], []⟩
      | none => .ok ⟨files, [], []⟩
  | .google_search =>
      match a.content with
      | some c =>
          if c = "" then .ok ⟨files, [], []⟩
          else
            match env.search c with
            | .error e => .error e
            | .ok r => .ok ⟨files, [r], []⟩
      | none => .ok ⟨files, [], []⟩
  | .run_script =>
      match storeGet files a.path with
      | some scriptFile =>
          match resolveContent env scriptFile with
          | .error e => .error e
          | .ok r =>
              let scriptContent := asString env r
              let jsRes : Except String String :=
                if strEnds a.path.data ".ts".data || strEnds a.path.data ".tsx".data then
                  env.transpile scriptContent
                else .ok scriptContent
              match jsRes with
              | .error e => .error e
              | .ok jsCode =>
                  match env.runScriptOracle jsCode with
                  | .ok logs =>
                      .ok ⟨files, ["Action RUN_SCRIPT '" ++ a.path ++
                        "' success. Logs:\n" ++ String.intercalate "\n" logs], []⟩
                  | .error e => .ok ⟨files, ["Action RUN_SCRIPT failed: " ++ e], []⟩
      | none => .ok ⟨files, [], []⟩
  | .edit_image => .ok ⟨files, [], []⟩
  | .compose_image => .ok ⟨files, [], []⟩
  | .generate_video => .ok ⟨files, [], []⟩
  | .trim_video => .ok ⟨files, [], []⟩

/-- The duplicate-suppression signature (App.tsx 36-44): `JSON.stringify`
of the semantic fields with `source_paths` sorted.  With the fixed key
order, `undefined`-omitting stringify is injective on these records, so
the tuple of present fields captures signature equality exactly. -/
abbrev Sig := ActionType × String × Option String × Option String ×
  Option (List String) × Option Int × Option Int

instance : DecidableEq (Option (List String) × Option Int × Option Int) :=
  inferInstance

instance : DecidableEq (Option String × Option (List String) × Option Int × Option Int) :=
  inferInstance

instance : DecidableEq (Option String × Option String × Option (List String) × Option Int × Option Int) :=
  inferInstance

instance : DecidableEq Sig :=
  inferInstance

def signature (a : AgentAction) : Sig :=
  (a.type, a.path, a.content, a.source_path,
    a.source_paths.map (fun l => l.insertionSort (· ≤ ·)),
    a.start_time, a.end_time)

/-- The per-action duplicate warning observation. -/
def dupWarning (a : AgentAction) : String :=
  "[System Warning] Skipped duplicate action: " ++ a.type.toStr ++ " '" ++ a.path ++ "'."

/-- The per-action catch observation (App.tsx 218-220): type and message,
without the path. -/
def catchObs (a : AgentAction) (e : String) : String :=
  "Action " ++ a.type.toStr ++ " failed: " ++ e

/-- The loop of App.tsx `performFileActions`: signature check, execution,
per-action catch, strictly in order. -/
def dispatchGo (env : DispatchEnv) :
    List Sig → List VirtualFile → List AgentAction →
      List VirtualFile × List String × List VirtualFile
  | _, files, [] => (files, [], [])
  | sigs, files, a :: rest =>
      if signature a ∈ sigs then
        let r := dispatchGo env sigs files rest
        (r.1, dupWarning a :: r.2.1, r.2.2)
      else
        match execAction env files a with
        | .ok res =>
            let r := dispatchGo env (signature a :: sigs) res.files rest
            (r.1, res.obs ++ r.2.1, res.att ++ r.2.2)
        | .error e =>
            let r := dispatchGo env (signature a :: sigs) files rest
            (r.1, catchObs a e :: r.2.1, r.2.2)

/-- App.tsx `performFileActions`. -/
def performFileActions (env : DispatchEnv) (currentFiles : List VirtualFile)
    (actions : List AgentAction) :
    List VirtualFile × List String × List VirtualFile :=
  dispatchGo env [] currentFiles actions

/-- The signature set and store after a batch (the loop's internal state,
for stating theorems about batch decompositions). -/
def dispatchState (env : DispatchEnv) :
    List Sig → List VirtualFile → List AgentAction → List Sig × List VirtualFile
  | sigs, files, [] => (sigs, files)
  | sigs, files, a :: rest =>
      if signature a ∈ sigs then dispatchState env sigs files rest
      else
        match execAction env files a with
        | .ok res => dispatchState env (signature a :: sigs) res.files rest
        | .error _ => dispatchState env (signature a :: sigs) files rest

/-- A concrete environment for closed evaluations: image generation and
search throw, scripts run and log `done`. -/
def oracleEnv : DispatchEnv where
  now := 1700
  resolveHandle := fun _ => .error "File handle lost"
  decodeBytes := fun _ => ""
  videoMetaInfo := fun _ => none
  genImage := fun _ => .error "boom"
  calcEval := fun _ => .error "not evaluated"
  search := fun _ => .error "network"
  transpile := fun s => .ok s
  runScriptOracle := fun _ => .ok ["done"]

/-- Character-list substring test (for stating what an observation does
not mention). -/
def containsSub : List Char → List Char → Bool
  | [], sub => sub.isEmpty
  | c :: rest, sub => strStarts (c :: rest) sub || containsSub rest sub

/-- The batch loop accumulates signatures: a signature present before a
batch is still present after it. -/
theorem dispatchState_sigs_sub (env : DispatchEnv) (l : List AgentAction) :
    ∀ sigs files g, g ∈ sigs → g ∈ (dispatchState env sigs files l).1 := by
  induction l with
  | nil => intro sigs files g hg; simpa [dispatchState] using hg
  | cons x rest ih =>
      intro sigs files g hg
      simp only [dispatchState]
      by_cases hx : signature x ∈ sigs
      · rw [if_pos hx]; exact ih _ _ _ hg
      · rw [if_neg hx]
        cases he : execAction env files x with
        | ok res => exact ih _ _ _ (List.mem_cons_of_mem _ hg)
        | error e => exact ih _ _ _ (List.mem_cons_of_mem _ hg)

/-- After a batch, the signature of every action of the batch is in the
signature set. -/
theorem dispatchState_sigs_mem (env : DispatchEnv) (l : List AgentAction) :
    ∀ sigs files b, b ∈ l → signature b ∈ (dispatchState env sigs files l).1 := by
  induction l with
  | nil => intro _ _ _ h; cases h
  | cons x rest ih =>
      intro sigs files b hb
      simp only [dispatchState]
      by_cases hx : signature x ∈ sigs
      · rw [if_pos hx]
        rcases List.mem_cons.mp hb with rfl | hb2
        · exact dispatchState_sigs_sub env rest sigs files _ hx
        · exact ih _ _ _ hb2
      · rw [if_neg hx]
        cases he : execAction env files x with
        | ok res =>
            rcases List.mem_cons.mp hb with rfl | hb2
            · exact dispatchState_sigs_sub env rest _ _ _ (List.mem_cons_self _ _)
            · exact ih _ _ _ hb2
        | error e =>
            rcases List.mem_cons.mp hb with rfl | hb2
            · exact dispatchState_sigs_sub env rest _ _ _ (List.mem_cons_self _ _)
            · exact ih _ _ _ hb2

/-- Batch decomposition: running `xs ++ ys` runs `xs`, then runs `ys` from
the signature set and store left by `xs`; observations and attachments
concatenate in order. -/
theorem dispatchGo_append (env : DispatchEnv) (xs : List AgentAction) :
    ∀ (sigs : List Sig) (files : List VirtualFile) (ys : List AgentAction),
    dispatchGo env sigs files (xs ++ ys) =
      ((dispatchGo env (dispatchState env sigs files xs).1
          (dispatchState env sigs files xs).2 ys).1,
       (dispatchGo env sigs files xs).2.1 ++
         (dispatchGo env (dispatchState env sigs files xs).1
           (dispatchState env sigs files xs).2 ys).2.1,
       (dispatchGo env sigs files xs).2.2 ++
         (dispatchGo env (dispatchState env sigs files xs).1
           (dispatchState env sigs files xs).2 ys).2.2) := by
  induction xs with
  | nil => intro sigs files ys; simp [dispatchGo, dispatchState]
  | cons x rest ih =>
      intro sigs files ys
      by_cases hx : signature x ∈ sigs
      · simp only [List.cons_append, dispatchGo, dispatchState, if_pos hx,
          List.append_eq, ih, List.append_assoc]
      · cases he : execAction env files x with
        | ok res =>
            simp only [List.cons_append, dispatchGo, dispatchState, if_neg hx, he,
              List.append_eq, ih, List.append_assoc]
        | error e =>
            simp only [List.cons_append, dispatchGo, dispatchState, if_neg hx, he,
              List.append_eq, ih, List.append_assoc]

/-- **C4.** The dispatcher signature is `(type, path, content, source_path,
sorted source_paths, start_time, end_time)`; when an action `a` of a batch
repeats the signature of an earlier action of the same batch, the run
equals: the run of the earlier part (which performed the one mutation),
then exactly one skipped-duplicate warning for `a` — no store change, no
attachment, no execution — then the rest of the batch continuing from the
store left before `a`. -/
theorem C4_duplicate_suppression (env : DispatchEnv) (files : List VirtualFile)
    (pre : List AgentAction) (a0 a : AgentAction) (post : List AgentAction)
    (hmem : a0 ∈ pre) (hsig : signature a0 = signature a) :
    performFileActions env files (pre ++ a :: post) =
      ((dispatchGo env (dispatchState env [] files pre).1
          (dispatchState env [] files pre).2 post).1,
       (dispatchGo env [] files pre).2.1 ++ dupWarning a ::
         (dispatchGo env (dispatchState env [] files pre).1
           (dispatchState env [] files pre).2 post).2.1,
       (dispatchGo env [] files pre).2.2 ++
         (dispatchGo env (dispatchState env [] files pre).1
           (dispatchState env [] files pre).2 post).2.2) := by
  have hin : signature a ∈ (dispatchState env [] files pre).1 := by
    rw [← hsig]; exact dispatchState_sigs_mem env pre [] files a0 hmem
  unfold performFileActions
  rw [dispatchGo_append env pre [] files (a :: post)]
  simp only [dispatchGo, if_pos hin]

/-- C4 at a concrete input: two write actions with different ids but equal
semantic fields; the second is skipped with the one warning. -/
theorem C4_duplicate_suppression_witness :
    performFileActions oracleEnv []
      [⟨"1", ActionType.write, "n.txt", some "x", none, none, none, none, none⟩,
       ⟨"2", ActionType.write, "n.txt", some "x", none, none, none, none, none⟩] =
      ([⟨"n.txt", "n.txt", FileContent.text "x", 1, FType.file, 1700,
          some "text/plain"⟩],
       ["Action WRITE 'n.txt' success.",
        "[System Warning] Skipped duplicate action: write 'n.txt'."],
       []) :=
  (C4_duplicate_suppression oracleEnv []
      [⟨"1", ActionType.write, "n.txt", some "x", none, none, none, none, none⟩]
      ⟨"1", ActionType.write, "n.txt", some "x", none, none, none, none, none⟩
      ⟨"2", ActionType.write, "n.txt", some "x", none, none, none, none, none⟩
      [] (List.mem_cons_self _ _) rfl).trans rfl

/-- `Map.get` after `Map.set` at the written path yields the written
entry. -/
theorem storeGet_set (files : List VirtualFile) (nf : VirtualFile) (p : String)
    (h : nf.path = p) : storeGet (storeSet files nf) p = some nf := by
  induction files with
  | nil =>
      simp only [storeSet, storeGet]
      rw [List.find?_cons_of_pos]
      simp [h]
  | cons f rest ih =>
      by_cases hfn : f.path = nf.path
      · simp only [storeSet, if_pos hfn, storeGet]
        rw [List.find?_cons_of_pos]
        simp [h]
      · simp only [storeSet, if_neg hfn, storeGet]
        rw [List.find?_cons_of_neg]
        · exact ih
        · simp only [decide_eq_true_eq]
          rw [← h]
          exact hfn

/-- The C5 scenario: `write "a/b.txt" "hi"` then `append "a/b.txt" "!"`. -/
def C5wAct : AgentAction :=
  ⟨"1", ActionType.write, "a/b.txt", some "hi", none, none, none, none, none⟩

def C5apAct : AgentAction :=
  ⟨"2", ActionType.append, "a/b.txt", some "!", none, none, none, none, none⟩

/-- The entry the write produces. -/
def C5wfile (env : DispatchEnv) : VirtualFile :=
  ⟨"a/b.txt", "b.txt", FileContent.text "hi", 2, FType.file, env.now,
    some "text/plain"⟩

/-- The entry the append then produces. -/
def C5afile (env : DispatchEnv) : VirtualFile :=
  ⟨"a/b.txt", "b.txt", FileContent.text "hi!", 3, FType.file, env.now,
    some "text/plain"⟩

theorem C5_exec_append (env : DispatchEnv) (files : List VirtualFile) :
    execAction env (storeSet files (C5wfile env)) C5apAct =
      Except.ok ⟨storeSet (storeSet files (C5wfile env)) (C5afile env),
        ["Action APPEND 'a/b.txt' success."], []⟩ := by
  have hg := storeGet_set files (C5wfile env) "a/b.txt" rfl
  simp only [execAction, C5apAct, hg]
  rw [if_neg (show ¬ (C5wfile env).size > 5 * 1024 * 1024 from by
    show ¬ (2 : Nat) > 5 * 1024 * 1024
    decide)]
  rfl

/-- **C5.** For every file store and environment, writing `"hi"` to
`"a/b.txt"` produces an entry with that content, size 2 (UTF-8 byte
length) and MIME type computed from the path (`text/plain`); a subsequent
append of `"!"` at the same path yields content `"hi!"` and size 3. -/
theorem C5_write_then_append (env : DispatchEnv) (files : List VirtualFile) :
    ∃ g f : VirtualFile,
      storeGet (performFileActions env files [C5wAct]).1 "a/b.txt" = some g ∧
      g.content = FileContent.text "hi" ∧ g.size = 2 ∧
      g.mimeType = some (getMimeType "a/b.txt") ∧
      getMimeType "a/b.txt" = "text/plain" ∧
      storeGet (performFileActions env files [C5wAct, C5apAct]).1 "a/b.txt" = some f ∧
      f.content = FileContent.text "hi!" ∧ f.size = 3 := by
  refine ⟨C5wfile env, C5afile env, ?_, rfl, rfl, rfl, rfl, ?_, rfl, rfl⟩
  · exact storeGet_set files (C5wfile env) "a/b.txt" rfl
  · have h2 : (performFileActions env files [C5wAct, C5apAct]).1 =
        storeSet (storeSet files (C5wfile env)) (C5afile env) := by
      show (dispatchGo env [signature C5wAct]
        (storeSet files (C5wfile env)) [C5apAct]).1 = _
      simp only [dispatchGo]
      rw [if_neg (by decide : ¬ (signature C5apAct ∈ [signature C5wAct]))]
      rw [C5_exec_append env files]
    rw [h2]
    exact storeGet_set _ (C5afile env) "a/b.txt" rfl

/-- **C6 (amended).** An exception raised while executing one action (whose
signature is new) is caught at the per-action boundary: the batch continues
on the unchanged store with the action's signature recorded, and the only
trace is one observation naming the action type and the error message (the
path is not part of the observation). -/
theorem C6_error_isolation (env : DispatchEnv) (sigs : List Sig)
    (files : List VirtualFile) (a : AgentAction) (rest : List AgentAction)
    (e : String) (hnin : signature a ∉ sigs)
    (herr : execAction env files a = .error e) :
    dispatchGo env sigs files (a :: rest) =
      ((dispatchGo env (signature a :: sigs) files rest).1,
       catchObs a e :: (dispatchGo env (signature a :: sigs) files rest).2.1,
       (dispatchGo env (signature a :: sigs) files rest).2.2) := by
  simp only [dispatchGo, if_neg hnin, herr]

/-- C6 at a concrete input: a throwing image generation is converted into
one failure observation and the following mkdir still executes. -/
theorem C6_error_isolation_witness :
    dispatchGo oracleEnv [] []
      [⟨"1", ActionType.generate_image, "w.png", some "a dog", none, none, none, none, none⟩,
       ⟨"2", ActionType.mkdir, "d", none, none, none, none, none, none⟩] =
      ([⟨"d", "d", FileContent.text "", 0, FType.directory, 1700, none⟩],
       ["Action generate_image failed: boom", "Action MKDIR 'd' success."],
       []) :=
  (C6_error_isolation oracleEnv [] []
      ⟨"1", ActionType.generate_image, "w.png", some "a dog", none, none, none, none, none⟩
      [⟨"2", ActionType.mkdir, "d", none, none, none, none, none, none⟩]
      "boom" (List.not_mem_nil _) rfl).trans rfl

/-- **C6 counterexample:** the catch observation (`Action TYPE failed:
MESSAGE`) does not name the action's path: for a failing image generation
at path `img.png` the only observation does not contain `img.png`. -/
theorem C6_path_not_in_observation :
    performFileActions oracleEnv []
        [⟨"1", ActionType.generate_image, "img.png", some "a cat", none, none, none, none, none⟩] =
      ([], ["Action generate_image failed: boom"], []) ∧
    containsSub "Action generate_image failed: boom".data "img.png".data = false :=
  ⟨rfl, by decide⟩

/-- A `write` with absent content executes as a complete no-op: no store
change, no observation, no attachment. -/
theorem execAction_write_none (env : DispatchEnv) (files : List VirtualFile)
    (a : AgentAction) (ha : a.type = ActionType.write) (hc : a.content = none) :
    execAction env files a = .ok ⟨files, [], []⟩ := by
  rw [execAction.eq_def, ha]
  dsimp only
  rw [hc]

/-- The batch loop only inspects the signature set through membership of
the signatures of the batch's actions. -/
theorem dispatchGo_sigs_ext (env : DispatchEnv) :
    ∀ (l : List AgentAction) (sigs1 sigs2 : List Sig) (files : List VirtualFile),
      (∀ b ∈ l, (signature b ∈ sigs1 ↔ signature b ∈ sigs2)) →
      dispatchGo env sigs1 files l = dispatchGo env sigs2 files l := by
  intro l
  induction l with
  | nil => intro _ _ _ _; rfl
  | cons x rest ih =>
      intro sigs1 sigs2 files hiff
      have hx := hiff x (List.mem_cons_self x rest)
      by_cases h1 : signature x ∈ sigs1
      · have h2 : signature x ∈ sigs2 := hx.mp h1
        simp only [dispatchGo, if_pos h1, if_pos h2]
        rw [ih sigs1 sigs2 files (fun b hb => hiff b (List.mem_cons_of_mem _ hb))]
      · have h2 : signature x ∉ sigs2 := fun hh => h1 (hx.mpr hh)
        cases he : execAction env files x with
        | ok res =>
            simp only [dispatchGo, if_neg h1, if_neg h2, he]
            rw [ih (signature x :: sigs1) (signature x :: sigs2) res.files
              (fun b hb => by
                simp only [List.mem_cons]
                exact or_congr Iff.rfl (hiff b (List.mem_cons_of_mem _ hb)))]
        | error e =>
            simp only [dispatchGo, if_neg h1, if_neg h2, he]
            rw [ih (signature x :: sigs1) (signature x :: sigs2) files
              (fun b hb => by
                simp only [List.mem_cons]
                exact or_congr Iff.rfl (hiff b (List.mem_cons_of_mem _ hb)))]

/-- Dropping a content-less `write` whose signature occurs nowhere else in
the batch leaves the whole run unchanged, for any prior signature set. -/
theorem dispatchGo_noop_skip (env : DispatchEnv) :
    ∀ (pre : List AgentAction) (sigs : List Sig) (files : List VirtualFile)
      (a : AgentAction) (post : List AgentAction),
      a.type = ActionType.write → a.content = none →
      signature a ∉ sigs →
      (∀ b ∈ pre ++ post, signature b ≠ signature a) →
      dispatchGo env sigs files (pre ++ a :: post) =
        dispatchGo env sigs files (pre ++ post) := by
  intro pre
  induction pre with
  | nil =>
      intro sigs files a post ha hc hnin hnd
      simp only [List.nil_append]
      simp only [dispatchGo, if_neg hnin, execAction_write_none env files a ha hc]
      rw [dispatchGo_sigs_ext env post (signature a :: sigs) sigs files ?_]
      · simp
      · intro b hb
        simp only [List.mem_cons]
        constructor
        · rintro (h | h)
          · exact absurd h (hnd b (by simpa using hb))
          · exact h
        · exact Or.inr
  | cons x pre2 ih =>
      intro sigs files a post ha hc hnin hnd
      have hnd2 : ∀ b ∈ pre2 ++ post, signature b ≠ signature a := fun b hb =>
        hnd b (by rw [List.cons_append]; exact List.mem_cons_of_mem _ hb)
      have hxa : signature x ≠ signature a :=
        hnd x (by rw [List.cons_append]; exact List.mem_cons_self _ _)
      simp only [List.cons_append]
      by_cases hx : signature x ∈ sigs
      · simp only [dispatchGo, if_pos hx]
        rw [ih sigs files a post ha hc hnin hnd2]
      · have hax : signature a ∉ (signature x :: sigs) := by
          simp only [List.mem_cons]
          rintro (h | h)
          · exact hxa h.symm
          · exact hnin h
        cases he : execAction env files x with
        | ok res =>
            simp only [dispatchGo, if_neg hx, he]
            rw [ih (signature x :: sigs) res.files a post ha hc hax hnd2]
        | error e =>
            simp only [dispatchGo, if_neg hx, he]
            rw [ih (signature x :: sigs) files a post ha hc hax hnd2]

/-- **C10 (amended).** A `write` action whose content field is absent is a
silent no-op — same final store, same observations, same attachments as
the batch without it — provided its signature does not occur elsewhere in
the batch.  The proviso is necessary: the no-op still records its
signature, so a repetition of the content-less write produces a
skipped-duplicate warning observation (see the counterexample). -/
theorem C10_noop_write_frame (env : DispatchEnv) (files : List VirtualFile)
    (a : AgentAction) (ha : a.type = ActionType.write) (hc : a.content = none)
    (pre post : List AgentAction)
    (hnd : ∀ b ∈ pre ++ post, signature b ≠ signature a) :
    performFileActions env files (pre ++ a :: post) =
      performFileActions env files (pre ++ post) := by
  unfold performFileActions
  exact dispatchGo_noop_skip env pre [] files a post ha hc (List.not_mem_nil _) hnd

/-- C10 at a concrete input: the content-less write between a mkdir and
nothing changes nothing. -/
theorem C10_noop_write_frame_witness :
    performFileActions oracleEnv []
        ([⟨"1", ActionType.mkdir, "d", none, none, none, none, none, none⟩] ++
         ⟨"2", ActionType.write, "q.txt", none, none, none, none, none, none⟩ :: []) =
      performFileActions oracleEnv []
        ([⟨"1", ActionType.mkdir, "d", none, none, none, none, none, none⟩] ++ []) :=
  C10_noop_write_frame oracleEnv []
    ⟨"2", ActionType.write, "q.txt", none, none, none, none, none, none⟩ rfl rfl
    [⟨"1", ActionType.mkdir, "d", none, none, none, none, none, none⟩] []
    (by
      intro b hb
      simp only [List.append_nil, List.mem_singleton] at hb
      subst hb
      decide)

/-- **C10 counterexample:** a batch repeating the content-less write is not
observation-free for that action: the second occurrence produces a
skipped-duplicate warning at the dispatcher's public interface. -/
theorem C10_duplicate_noop_write_warns :
    performFileActions oracleEnv []
        [⟨"1", ActionType.write, "p.txt", none, none, none, none, none, none⟩,
         ⟨"2", ActionType.write, "p.txt", none, none, none, none, none, none⟩] =
      ([], ["[System Warning] Skipped duplicate action: write 'p.txt'."], []) :=
  rfl

/-! ### Write-verification retry policy (App.tsx, `handleSendMessage`)

After each dispatch the controller verifies every write/mkdir action:
if the target path is absent from the updated store, a retry counter
keyed by the string `TYPE:PATH` (a JS `Map` persisting across turns)
decides between a retry directive and a terminal failure notice. -/

def MAX_RETRY_COUNT : Nat := 3

/-- `actionRetryMap.get(key) || 0`. -/
def retryGet (m : List (String × Nat)) (k : String) : Nat :=
  match m.find? (fun e => e.1 = k) with
  | some e => e.2
  | none => 0

/-- `actionRetryMap.set(key, v)`: replace in place or append. -/
def retrySet : List (String × Nat) → String → Nat → List (String × Nat)
  | [], k, v => [(k, v)]
  | e :: rest, k, v => if e.1 = k then (k, v) :: rest else e :: retrySet rest k v

/-- The retry key `${action.type}:${action.path}`. -/
def retryKey (a : AgentAction) : String := a.type.toStr ++ ":" ++ a.path

/-- What one verification iteration pushes: a retry directive (carrying
the pre-increment counter) or a terminal failure notice. -/
inductive RetryEvent where
  | retry (a : AgentAction) (cur : Nat)
  | terminal (a : AgentAction)
  deriving DecidableEq

def eventKey : RetryEvent → String
  | .retry a _ => retryKey a
  | .terminal a => retryKey a

/-- The exact instruction strings of the source. -/
def renderEvent : RetryEvent → String
  | .retry a cur =>
      "[CRITICAL SYSTEM] File creation failed for '" ++ a.path ++
        "'. Action was '" ++ a.type.toStr ++
        "'. The file is NOT present in the system. PLEASE RETRY THIS ACTION. (Attempt " ++
        toString (cur + 1) ++ "/" ++ toString MAX_RETRY_COUNT ++ ")"
  | .terminal a =>
      "[CRITICAL SYSTEM] File creation failed for '" ++ a.path ++ "' after " ++
        toString MAX_RETRY_COUNT ++ " attempts. Please notify the user of this failure."

/-- The verification loop over one turn's actions, threading the retry
map; `uf` is the store after the dispatch (`updatedFiles`). -/
def verifyEvents (uf : List VirtualFile) :
    List (String × Nat) → List AgentAction → List (String × Nat) × List RetryEvent
  | m, [] => (m, [])
  | m, a :: rest =>
      if a.type = ActionType.write ∨ a.type = ActionType.mkdir then
        if uf.any (fun f => f.path = a.path) then verifyEvents uf m rest
        else
          if retryGet m (retryKey a) < MAX_RETRY_COUNT then
            let r := verifyEvents uf
              (retrySet m (retryKey a) (retryGet m (retryKey a) + 1)) rest
            (r.1, RetryEvent.retry a (retryGet m (retryKey a)) :: r.2)
          else
            let r := verifyEvents uf m rest
            (r.1, RetryEvent.terminal a :: r.2)
      else verifyEvents uf m rest

/-- One turn's retry instructions, rendered as in the source. -/
def verifyActions (uf : List VirtualFile) (m : List (String × Nat))
    (acts : List AgentAction) : List (String × Nat) × List String :=
  ((verifyEvents uf m acts).1, (verifyEvents uf m acts).2.map renderEvent)

/-- A whole run: the retry map persists across turns; each turn is the
post-dispatch store paired with the turn's action list. -/
def verifyTurns :
    List (String × Nat) → List (List VirtualFile × List AgentAction) →
      List (String × Nat) × List (List RetryEvent)
  | m, [] => (m, [])
  | m, t :: rest =>
      let s := verifyEvents t.1 m t.2
      let r := verifyTurns s.1 rest
      (r.1, s.2 :: r.2)

theorem retryGet_set_self (m : List (String × Nat)) (k : String) (v : Nat) :
    retryGet (retrySet m k v) k = v := by
  induction m with
  | nil =>
      simp only [retrySet, retryGet, List.find?]
      simp
  | cons e rest ih =>
      by_cases he : e.1 = k
      · simp only [retrySet, if_pos he, retryGet, List.find?]
        simp
      · simp only [retrySet, if_neg he, retryGet, List.find?]
        rw [show (decide (e.1 = k)) = false by simp [he]]
        exact ih

theorem retryGet_set_other (m : List (String × Nat)) (k k2 : String) (v : Nat)
    (h : k2 ≠ k) : retryGet (retrySet m k v) k2 = retryGet m k2 := by
  induction m with
  | nil =>
      simp only [retrySet, retryGet, List.find?]
      rw [show (decide ((k, v).1 = k2)) = false by simp [Ne.symm h]]
  | cons e rest ih =>
      by_cases he : e.1 = k
      · simp only [retrySet, if_pos he, retryGet, List.find?]
        rw [show (decide ((k, v).1 = k2)) = false by simp [Ne.symm h]]
        rw [show (decide (e.1 = k2)) = false by simp [he, Ne.symm h]]
      · simp only [retrySet, if_neg he, retryGet, List.find?]
        cases hd : decide (e.1 = k2) with
        | true => rfl
        | false => exact ih

/-- Incrementing any key never lowers any counter. -/
theorem retryGet_set_incr (m : List (String × Nat)) (k1 k : String) :
    retryGet m k ≤ retryGet (retrySet m k1 (retryGet m k1 + 1)) k := by
  by_cases hk : k = k1
  · subst hk; rw [retryGet_set_self]; omega
  · rw [retryGet_set_other _ _ _ _ hk]

/-- Retry counters are monotone across one verification pass. -/
theorem verifyEvents_mono (uf : List VirtualFile) (acts : List AgentAction) :
    ∀ m k, retryGet m k ≤ retryGet (verifyEvents uf m acts).1 k := by
  induction acts with
  | nil => intro m k; exact le_refl _
  | cons a rest ih =>
      intro m k
      simp only [verifyEvents]
      by_cases hw : a.type = ActionType.write ∨ a.type = ActionType.mkdir
      · rw [if_pos hw]
        by_cases hex : uf.any (fun f => f.path = a.path) = true
        · rw [if_pos hex]; exact ih m k
        · rw [if_neg hex]
          by_cases hc : retryGet m (retryKey a) < MAX_RETRY_COUNT
          · rw [if_pos hc]
            exact le_trans (retryGet_set_incr m (retryKey a) k) (ih _ k)
          · rw [if_neg hc]
            exact ih m k
      · rw [if_neg hw]; exact ih m k

/-- Once a key's counter is at the cap, a verification pass emits only
terminal notices for that key. -/
theorem verifyEvents_capped (uf : List VirtualFile) (acts : List AgentAction) :
    ∀ m k, MAX_RETRY_COUNT ≤ retryGet m k →
      ∀ ev ∈ (verifyEvents uf m acts).2, eventKey ev = k →
        ∃ a, ev = RetryEvent.terminal a := by
  induction acts with
  | nil =>
      intro m k hcap ev hev
      simp [verifyEvents] at hev
  | cons a rest ih =>
      intro m k hcap ev hev hkey
      simp only [verifyEvents] at hev
      by_cases hw : a.type = ActionType.write ∨ a.type = ActionType.mkdir
      · rw [if_pos hw] at hev
        by_cases hex : uf.any (fun f => f.path = a.path) = true
        · rw [if_pos hex] at hev; exact ih m k hcap ev hev hkey
        · rw [if_neg hex] at hev
          by_cases hc : retryGet m (retryKey a) < MAX_RETRY_COUNT
          · rw [if_pos hc] at hev
            rcases List.mem_cons.mp hev with rfl | hev2
            · exfalso
              simp only [eventKey] at hkey
              rw [hkey] at hc
              omega
            · exact ih _ k (le_trans hcap (retryGet_set_incr m (retryKey a) k))
                ev hev2 hkey
          · rw [if_neg hc] at hev
            rcases List.mem_cons.mp hev with rfl | hev2
            · exact ⟨a, rfl⟩
            · exact ih m k hcap ev hev2 hkey
      · rw [if_neg hw] at hev; exact ih m k hcap ev hev hkey

/-- Cap permanence over a whole run. -/
theorem verifyTurns_capped (turns : List (List VirtualFile × List AgentAction)) :
    ∀ m k, MAX_RETRY_COUNT ≤ retryGet m k →
      ∀ out ∈ (verifyTurns m turns).2, ∀ ev ∈ out, eventKey ev = k →
        ∃ a, ev = RetryEvent.terminal a := by
  induction turns with
  | nil =>
      intro m k hcap out hout
      simp [verifyTurns] at hout
  | cons t rest ih =>
      intro m k hcap out hout
      simp only [verifyTurns] at hout
      rcases List.mem_cons.mp hout with rfl | hout2
      · exact fun ev hev hkey => verifyEvents_capped t.1 t.2 m k hcap ev hev hkey
      · exact ih _ k (le_trans hcap (verifyEvents_mono t.1 t.2 m k)) out hout2

/-- **C7.** After each dispatch, every write/mkdir action whose path is
absent from the updated store consults the retry counter at key
`TYPE:PATH`: under the cap `MAX_RETRY_COUNT` the counter is incremented
and a retry directive (attempt `cur+1` of 3) is pushed; at the cap the
counter stays and a terminal failure notice is pushed; counters never
decrease across passes, so once a key reaches the cap no retry directive
for that key is issued in any later turn of the run — only terminal
notices. -/
theorem C7_retry_cap_policy :
    (∀ (uf : List VirtualFile) (m : List (String × Nat)) (a : AgentAction)
        (rest : List AgentAction),
      (a.type = ActionType.write ∨ a.type = ActionType.mkdir) →
      uf.any (fun f => f.path = a.path) = false →
      retryGet m (retryKey a) < MAX_RETRY_COUNT →
      verifyEvents uf m (a :: rest) =
        ((verifyEvents uf (retrySet m (retryKey a) (retryGet m (retryKey a) + 1)) rest).1,
         RetryEvent.retry a (retryGet m (retryKey a)) ::
           (verifyEvents uf (retrySet m (retryKey a) (retryGet m (retryKey a) + 1)) rest).2)) ∧
    (∀ (uf : List VirtualFile) (m : List (String × Nat)) (a : AgentAction)
        (rest : List AgentAction),
      (a.type = ActionType.write ∨ a.type = ActionType.mkdir) →
      uf.any (fun f => f.path = a.path) = false →
      MAX_RETRY_COUNT ≤ retryGet m (retryKey a) →
      verifyEvents uf m (a :: rest) =
        ((verifyEvents uf m rest).1,
         RetryEvent.terminal a :: (verifyEvents uf m rest).2)) ∧
    (∀ (uf : List VirtualFile) (acts : List AgentAction) (m : List (String × Nat))
        (k : String), retryGet m k ≤ retryGet (verifyEvents uf m acts).1 k) ∧
    (∀ (turns : List (List VirtualFile × List AgentAction))
        (m : List (String × Nat)) (k : String),
      MAX_RETRY_COUNT ≤ retryGet m k →
      ∀ out ∈ (verifyTurns m turns).2, ∀ ev ∈ out, eventKey ev = k →
        ∃ a, ev = RetryEvent.terminal a) := by
  refine ⟨?_, ?_, fun uf acts m k => verifyEvents_mono uf acts m k,
    fun turns m k => verifyTurns_capped turns m k⟩
  · intro uf m a rest hw hex hc
    simp only [verifyEvents, if_pos hw, if_pos hc]
    rw [if_neg (by simp [hex])]
  · intro uf m a rest hw hex hcap
    simp only [verifyEvents, if_pos hw]
    rw [if_neg (by simp [hex]), if_neg (by omega : ¬ retryGet m (retryKey a) < MAX_RETRY_COUNT)]

/-- C7 at a concrete input: a capped key gets the terminal notice and no
counter change. -/
theorem C7_retry_cap_policy_witness :
    verifyEvents [] [("write:p.txt", 3)]
        [⟨"1", ActionType.write, "p.txt", some "x", none, none, none, none, none⟩] =
      ([("write:p.txt", 3)],
       [RetryEvent.terminal
         ⟨"1", ActionType.write, "p.txt", some "x", none, none, none, none, none⟩]) :=
  (C7_retry_cap_policy.2.1 [] [("write:p.txt", 3)]
      ⟨"1", ActionType.write, "p.txt", some "x", none, none, none, none, none⟩ []
      (Or.inl rfl) rfl (by decide)).trans rfl

/-! ### Conversation messages, the runAgent request builder, and the turn
loop (types.ts, geminiService.ts 188-260, App.tsx `handleSendMessage`)

`ChatMessage` carries what the request builder and the turn loop inspect
(attachments, which only add a bookkeeping line and file parts to the
request, are elided). -/

inductive Role where
  | user | model
  deriving DecidableEq

/-- `AgentResponse` of types.ts (risk assessment elided — nothing below
inspects it). -/
structure AgentResponse where
  thought : String
  plan : List String := []
  actions : Option (List AgentAction) := none
  final_answer : Option String := none
  deriving DecidableEq

structure ChatMessage where
  role : Role
  content : String
  isObservation : Bool := false
  isError : Bool := false
  agentResponse : Option AgentResponse := none
  deriving DecidableEq

/-- geminiService.ts `areActionsIdentical`: both lists present, equal
length, non-empty, and the first actions agree on type, path, content. -/
def areActionsIdentical (o1 o2 : Option (List AgentAction)) : Bool :=
  match o1, o2 with
  | some l1, some l2 =>
      if l1.length ≠ l2.length then false
      else if l1.length = 0 then false
      else
        match l1, l2 with
        | a1 :: _, a2 :: _ =>
            decide (a1.type = a2.type) && decide (a1.path = a2.path) &&
              decide (a1.content = a2.content)
        | _, _ => false
  | _, _ => false

/-- The index of the last user-role message (`-1` when none), scanned from
the end as in the source. -/
def lastUserMsgIndex (hist : List ChatMessage) : Int :=
  match (hist.enum.filter (fun p => p.2.role = Role.user)).getLast? with
  | some p => (p.1 : Int)
  | none => -1

/-- `chatHistory.filter(m => m.role === 'model' && m.agentResponse)`,
projected to the responses. -/
def modelResponses (hist : List ChatMessage) : List AgentResponse :=
  hist.filterMap (fun mM => if mM.role = Role.model then mM.agentResponse else none)

/-- The dynamic history check for looping (geminiService.ts 227-237). -/
def isLoopingDetected (hist : List ChatMessage) : Bool :=
  let ms := modelResponses hist
  if 2 ≤ ms.length then
    match ms.getLast?, ms.dropLast.getLast? with
    | some lastR, some prevR => areActionsIdentical lastR.actions prevR.actions
    | _, _ => false
  else false

/-- The anti-looping directive appended to the last user message. -/
def loopWarning : String :=
  "\n\n[SYSTEM DETECTED REPETITION LOOP: You are repeating identical actions. THIS IS FORBIDDEN. You MUST change your parameters, try a different tool, or ask the user for clarification. Do NOT output the same action again.]"

/-- The per-message text of the request contents: the file context — and,
when looping is detected, the repetition directive — are injected into the
last user message only. -/
def buildContents (hist : List ChatMessage) (ctx : String) : List (Role × String) :=
  hist.enum.map (fun p =>
    (p.2.role,
      if (p.1 : Int) = lastUserMsgIndex hist then
        p.2.content ++ "\n\n" ++ ctx ++
          (if isLoopingDetected hist then loopWarning else "")
      else p.2.content))

/-- The turn loop of App.tsx `handleSendMessage` (lines 262-372). -/

def MAX_TURNS : Nat := 30

/-- JS truthiness of an optional string. -/
def isTruthyStr : Option String → Bool
  | some s => decide (s ≠ "")
  | none => false

/-- The placeholder response of the model message pushed before the agent
call. -/
def placeholderResp : AgentResponse := ⟨"Thinking...", [], some [], none⟩

def modelMsg (resp : AgentResponse) : ChatMessage :=
  { role := Role.model, content := "", agentResponse := some resp }

def obsMsg (text : String) : ChatMessage :=
  { role := Role.user, content := text, isObservation := true }

/-- The catch handler's error entry. -/
def errMsg (e : String) : ChatMessage :=
  { role := Role.model, content := "Error: " ++ e, isError := true }

/-- The observation step of one turn (App.tsx 320-352): dispatch plus
retry verification when actions are present, else a nudge depending on the
thought's truthiness.  Returns updated files, updated retry map,
observation text. -/
def observationFor (denv : DispatchEnv) (files : List VirtualFile)
    (m : List (String × Nat)) (resp : AgentResponse) :
    List VirtualFile × List (String × Nat) × String :=
  match resp.actions with
  | some acts =>
      if 0 < acts.length then
        let r := performFileActions denv files acts
        let v := verifyActions r.1 m acts
        let base := "Observation:\n" ++ String.intercalate "\n" r.2.1
        (r.1, v.1,
          if 0 < v.2.length then base ++ "\n\n" ++ String.intercalate "\n" v.2
          else base)
      else
        (files, m,
          if resp.thought ≠ "" then "[System: Please continue or finalize.]"
          else "[System Warning: No actions taken.]")
  | none =>
      (files, m,
        if resp.thought ≠ "" then "[System: Please continue or finalize.]"
        else "[System Warning: No actions taken.]")

/-- The loop's mutable state. -/
structure LoopState where
  files : List VirtualFile
  history : List ChatMessage
  retryMap : List (String × Nat)
  deriving DecidableEq

inductive StopReason where
  | finalAnswer | budget | errored
  deriving DecidableEq

/-- The external model call: full history (with the placeholder pushed)
and current files (standing for the generated file context); `.error`
models a throw inside `runAgent`. -/
structure AgentEnv where
  denv : DispatchEnv
  agent : List ChatMessage → List VirtualFile → Except String AgentResponse

/-- The `while (turn < MAX_TURNS)` loop, fuel = remaining turns: push the
placeholder model message, call the agent (a throw reaches the catch,
which appends the error entry), overwrite the placeholder's response,
break on a truthy final answer, else push the observation message and
continue. -/
def turnLoop (env : AgentEnv) : Nat → LoopState → LoopState × StopReason
  | 0, st => (st, StopReason.budget)
  | fuel + 1, st =>
      let hist0 := st.history ++ [modelMsg placeholderResp]
      match env.agent hist0 st.files with
      | .error e => (⟨st.files, hist0 ++ [errMsg e], st.retryMap⟩, StopReason.errored)
      | .ok resp =>
          let hist1 := st.history ++ [modelMsg resp]
          if isTruthyStr resp.final_answer then
            (⟨st.files, hist1, st.retryMap⟩, StopReason.finalAnswer)
          else
            let ofr := observationFor env.denv st.files st.retryMap resp
            turnLoop env fuel ⟨ofr.1, hist1 ++ [obsMsg ofr.2.2], ofr.2.1⟩

/-- A whole run starts with the full budget. -/
def runTurns (env : AgentEnv) (st : LoopState) : LoopState × StopReason :=
  turnLoop env MAX_TURNS st

/-- One non-stopping loop body, for stating what `MAX_TURNS` silent
iterations amount to. -/
def bodyOnce (env : AgentEnv) (st : LoopState) : LoopState :=
  match env.agent (st.history ++ [modelMsg placeholderResp]) st.files with
  | .error _ => st
  | .ok resp =>
      let ofr := observationFor env.denv st.files st.retryMap resp
      ⟨ofr.1, (st.history ++ [modelMsg resp]) ++ [obsMsg ofr.2.2], ofr.2.1⟩

theorem turnLoop_no_final (env : AgentEnv)
    (hok : ∀ hist fls, ∃ r, env.agent hist fls = Except.ok r ∧
        isTruthyStr r.final_answer = false) :
    ∀ (fuel : Nat) (st : LoopState),
      turnLoop env fuel st = ((bodyOnce env)^[fuel] st, StopReason.budget) := by
  intro fuel
  induction fuel with
  | zero => intro st; rfl
  | succ n ih =>
      intro st
      obtain ⟨r, hr, hf⟩ := hok (st.history ++ [modelMsg placeholderResp]) st.files
      have hb : bodyOnce env st =
          ⟨(observationFor env.denv st.files st.retryMap r).1,
            (st.history ++ [modelMsg r]) ++
              [obsMsg (observationFor env.denv st.files st.retryMap r).2.2],
            (observationFor env.denv st.files st.retryMap r).2.1⟩ := by
        simp only [bodyOnce, hr]
      simp only [turnLoop, hr]
      rw [if_neg (by simp [hf])]
      rw [Function.iterate_succ_apply, hb, ih]

/-- **C8 (amended).** If the agent never throws and never returns a truthy
final answer, the run performs exactly `MAX_TURNS` loop bodies and then
stops silently with the budget stop reason: the final state is exactly the
`MAX_TURNS`-fold body iterate — no turn-budget-exhaustion notice and no
error entry is appended after the loop. -/
theorem C8_turn_budget (env : AgentEnv)
    (hok : ∀ hist fls, ∃ r, env.agent hist fls = Except.ok r ∧
        isTruthyStr r.final_answer = false) (st : LoopState) :
    runTurns env st = ((bodyOnce env)^[MAX_TURNS] st, StopReason.budget) :=
  turnLoop_no_final env hok MAX_TURNS st

/-- The C8 run with a constant agent: always a thought, no actions, no
final answer. -/
def c8Resp : AgentResponse := ⟨"t", [], some [], none⟩

def c8Env : AgentEnv := ⟨oracleEnv, fun _ _ => .ok c8Resp⟩

/-- C8 at a concrete input. -/
theorem C8_turn_budget_witness :
    runTurns c8Env ⟨[], [], []⟩ =
      ((bodyOnce c8Env)^[MAX_TURNS] ⟨[], [], []⟩, StopReason.budget) :=
  C8_turn_budget c8Env (fun _ _ => ⟨c8Resp, rfl, rfl⟩) ⟨[], [], []⟩

/-- **C8 counterexample:** with an agent that never produces a final
answer, the run stops on the turn budget after exactly `MAX_TURNS`
iterations (60 appended messages), but no bounded-iteration notice is
emitted: every message of the final history is a model turn or the
continue nudge, and none is an error entry — the stop is silent. -/
theorem C8_budget_stop_is_silent :
    (runTurns c8Env ⟨[], [], []⟩).2 = StopReason.budget ∧
    (runTurns c8Env ⟨[], [], []⟩).1.history.length = 2 * MAX_TURNS ∧
    ∀ mM ∈ (runTurns c8Env ⟨[], [], []⟩).1.history,
      (mM = modelMsg c8Resp ∨ mM = obsMsg "[System: Please continue or finalize.]") ∧
        mM.isError = false := by
  decide

/-- **C9 (amended).** When the two most recent model responses of the
history carry action lists of equal length whose first actions agree on
type, path and content, looping is detected and the request builder
appends the repetition-forbidden directive (after the file context) to the
text of the last user-role message. -/
theorem C9_repetition_warning (hist : List ChatMessage) (ctx : String)
    (pre : List AgentResponse) (r2 r1 : AgentResponse)
    (hms : modelResponses hist = pre ++ [r2, r1])
    (t1 t2 : List AgentAction) (a1 a2 : AgentAction)
    (h1 : r1.actions = some (a1 :: t1)) (h2 : r2.actions = some (a2 :: t2))
    (hlen : t1.length = t2.length)
    (hty : a1.type = a2.type) (hpa : a1.path = a2.path)
    (hco : a1.content = a2.content) :
    isLoopingDetected hist = true ∧
    ∀ (j : Nat) (mM : ChatMessage), hist.get? j = some mM →
      (j : Int) = lastUserMsgIndex hist →
      (buildContents hist ctx).get? j =
        some (mM.role, mM.content ++ "\n\n" ++ ctx ++ loopWarning) := by
  have hloop : isLoopingDetected hist = true := by
    simp only [isLoopingDetected, hms]
    have hl2 : 2 ≤ (pre ++ [r2, r1]).length := by
      simp [List.length_append]
    rw [if_pos hl2]
    have hassoc : pre ++ [r2, r1] = (pre ++ [r2]) ++ [r1] := by simp
    have hgl : (pre ++ [r2, r1]).getLast? = some r1 := by
      rw [hassoc]; exact List.getLast?_concat _
    have hdl : (pre ++ [r2, r1]).dropLast = pre ++ [r2] := by
      rw [hassoc]; exact List.dropLast_concat
    rw [hgl, hdl, List.getLast?_concat]
    simp [areActionsIdentical, h1, h2, hlen, hty, hpa, hco]
  refine ⟨hloop, ?_⟩
  intro j mM hj hidx
  rw [buildContents, List.get?_map, List.get?_enum, hj]
  simp only [Option.map_some']
  rw [if_pos hidx, hloop]
  rfl

/-- The repeated action of the C9 scenarios. -/
def c9a : AgentAction :=
  ⟨"1", ActionType.write, "p.txt", some "c", none, none, none, none, none⟩

def c9b : AgentAction :=
  ⟨"2", ActionType.read, "q.txt", none, none, none, none, none, none⟩

/-- History whose two most recent model turns repeat the same single
action. -/
def c9whist : List ChatMessage :=
  [⟨Role.user, "hi", false, false, none⟩,
   ⟨Role.model, "", false, false, some ⟨"t1", [], some [c9a], none⟩⟩,
   ⟨Role.user, "obs1", true, false, none⟩,
   ⟨Role.model, "", false, false, some ⟨"t2", [], some [c9a], none⟩⟩,
   ⟨Role.user, "obs2", true, false, none⟩]

/-- C9 at a concrete input: the directive lands in the last user message
(index 4). -/
theorem C9_repetition_warning_witness :
    isLoopingDetected c9whist = true ∧
    (buildContents c9whist "CTX").get? 4 =
      some (Role.user, "obs2" ++ "\n\n" ++ "CTX" ++ loopWarning) :=
  ⟨(C9_repetition_warning c9whist "CTX" [] ⟨"t1", [], some [c9a], none⟩
      ⟨"t2", [], some [c9a], none⟩ rfl [] [] c9a c9a rfl rfl rfl rfl rfl rfl).1,
   (C9_repetition_warning c9whist "CTX" [] ⟨"t1", [], some [c9a], none⟩
      ⟨"t2", [], some [c9a], none⟩ rfl [] [] c9a c9a rfl rfl rfl rfl rfl rfl).2
     4 ⟨Role.user, "obs2", true, false, none⟩ rfl rfl⟩

/-- History whose two most recent model turns have equal first actions but
action lists of different lengths. -/
def c9hist : List ChatMessage :=
  [⟨Role.user, "hi", false, false, none⟩,
   ⟨Role.model, "", false, false, some ⟨"t1", [], some [c9a], none⟩⟩,
   ⟨Role.user, "obs1", true, false, none⟩,
   ⟨Role.model, "", false, false, some ⟨"t2", [], some [c9a, c9b], none⟩⟩,
   ⟨Role.user, "obs2", true, false, none⟩]

/-- **C9 counterexample:** the two most recent model turns each carry an
action list and their first actions are equal (both are `c9a`), yet —
the lists having different lengths — no repetition directive is injected:
the last user message gets only the file context. -/
theorem C9_first_action_match_not_sufficient :
    areActionsIdentical (some [c9a, c9b]) (some [c9a]) = false ∧
    isLoopingDetected c9hist = false ∧
    buildContents c9hist "CTX" =
      [(Role.user, "hi"), (Role.model, ""), (Role.user, "obs1"),
       (Role.model, ""), (Role.user, "obs2\n\nCTX")] ∧
    containsSub "obs2\n\nCTX".data loopWarning.data = false := by
  decide

end DarkAGI
